import Mathlib

/-!
Verification of the fiberassign focal-plane hardware model
(`src/hardware.cpp`, `src/tiles.cpp`).

The C++ code is shallowly embedded over the real numbers: `double`
arithmetic is modelled by exact real arithmetic, the C math library
(`cos`, `sin`, `acos`, `atan2`, `sqrt`, `fmod`) by the corresponding
Mathlib functions, and `std::map` objects keyed by location id by total
functions out of `ℤ` built with the same last-write-wins update order as
the source.  The geometry primitives of `fiberassign::geom`
(`shape`, `dist`, `sq`, `intersect`, the shape transforms) are not part
of the provided sources; they are modelled from the specification where
so marked.  The one unbounded loop in the sources
(`Hardware::radial_dist2ang`) is modelled with an explicit fuel
parameter; theorems about it quantify over the fuel.
-/

namespace Fiberassign

/-! ## Geometry primitives (`fiberassign::geom`), modelled from the spec -/

/-- A point of the focal plane, in millimeters. -/
abbrev Point := ℝ × ℝ

/-- Componentwise sum of two points/vectors. -/
noncomputable def addp (p v : Point) : Point := (p.1 + v.1, p.2 + v.2)

/-- Componentwise difference of two points/vectors. -/
noncomputable def subp (p v : Point) : Point := (p.1 - v.1, p.2 - v.2)

/-- Rotation of `p` about the origin by the angle whose cosine/sine pair is `cs`. -/
noncomputable def rotp (cs p : Point) : Point :=
  (cs.1 * p.1 - cs.2 * p.2, cs.2 * p.1 + cs.1 * p.2)

/-- Modelled from the spec: `fbg::dist` (geom.cpp is not under `src/`) is the
euclidean distance between two focal-plane points. -/
noncomputable def dist (p q : Point) : ℝ :=
  Real.sqrt ((p.1 - q.1) ^ 2 + (p.2 - q.2) ^ 2)

/-- Modelled from the spec: `fbg::sq` on a 2-vector (geom.cpp is not under
`src/`) is the squared euclidean norm, `|offset|²`. -/
noncomputable def sqv (p : Point) : ℝ := p.1 * p.1 + p.2 * p.2

/-- Modelled from the spec: the scalar overload of `fbg::sq`. -/
noncomputable def sqs (x : ℝ) : ℝ := x * x

/-- Modelled from the spec: a `fbg::shape` stores a list of polygon vertices
together with a reference point (`axis`), "typically the last translation
target", about which `rotation` pivots.  The bounding circle of the C++
implementation is only an O(1) rejection optimisation for the intersection
test and carries no additional semantics, so it is not modelled. -/
structure shape where
  axis : Point
  points : List Point

instance : Inhabited shape := ⟨⟨(0, 0), []⟩⟩

/-- Modelled from the spec: `transl(v)` adds `v` to every vertex (the
reference point moves with the shape). -/
noncomputable def shape.transl (s : shape) (v : Point) : shape :=
  ⟨addp s.axis v, s.points.map (fun p => addp p v)⟩

/-- Modelled from the spec: `rotation_origin(cs)` applies the rotation by
`(cos, sin) = cs` about the origin to every vertex. -/
noncomputable def shape.rotation_origin (s : shape) (cs : Point) : shape :=
  ⟨rotp cs s.axis, s.points.map (rotp cs)⟩

/-- Modelled from the spec: `rotation(cs)` rotates the vertices about the
shape's current reference point. -/
noncomputable def shape.rotation (s : shape) (cs : Point) : shape :=
  ⟨s.axis, s.points.map (fun p => addp s.axis (rotp cs (subp p s.axis)))⟩

/-- The closed segment joining `p` and `q` crosses the one joining `a` and
`b`: they share a point. -/
def segCross (p q a b : Point) : Prop :=
  ∃ t u : ℝ, 0 ≤ t ∧ t ≤ 1 ∧ 0 ≤ u ∧ u ≤ 1 ∧
    addp p (t • subp q p) = addp a (u • subp b a)

/-- The edges of a closed polygon: consecutive vertex pairs, wrapping around. -/
def shape.edges (s : shape) : List (Point × Point) :=
  s.points.zip (s.points.rotate 1)

/-- Modelled from the spec: the spec leaves "one shape contains a vertex of
the other" unspecified (point-in-polygon); containment is modelled as
membership in the convex hull of the vertex set. -/
def inShape (s : shape) (p : Point) : Prop :=
  p ∈ convexHull ℝ {q : Point | q ∈ s.points}

/-- Modelled from the spec: `intersect(A,B)` is true iff any edge of `A`
crosses any edge of `B` or one shape contains a vertex of the other. -/
def Intersects (A B : shape) : Prop :=
  (∃ e ∈ A.edges, ∃ f ∈ B.edges, segCross e.1 e.2 f.1 f.2) ∨
  (∃ v ∈ B.points, inShape A v) ∨
  (∃ v ∈ A.points, inShape B v)

open Classical in
/-- Boolean form of the intersection test, as returned by `fbg::intersect`. -/
noncomputable def intersectB (A B : shape) : Bool := decide (Intersects A B)

/-! ## Math-library functions used by hardware.cpp -/

/-- C's `atan2(y, x)`: the argument of the complex number `x + iy`,
in `(-π, π]`. -/
noncomputable def atan2 (y x : ℝ) : ℝ := Complex.arg ⟨x, y⟩

/-- Truncation toward zero, as C's `trunc`. -/
noncomputable def ctrunc (z : ℝ) : ℤ := if 0 ≤ z then ⌊z⌋ else ⌈z⌉

/-- C's `fmod(x, y) = x - trunc(x/y)·y`. -/
noncomputable def fmodReal (x y : ℝ) : ℝ := x - y * (ctrunc (x / y) : ℝ)

/-- The float machine epsilon, `std::numeric_limits<float>::epsilon() = 2⁻²³`. -/
noncomputable def flt_epsilon : ℝ := 1 / 8388608

/-! ## Radial distortion (hardware.cpp lines 198-231) -/

/-- Embeds `Hardware::radial_ang2dist`: the fixed cubic fit
`p = [8.297e5, -1750., 1.394e4, 0.0]` evaluated in Horner form, exactly as
the `for` loop over `p` does. -/
noncomputable def radial_ang2dist (theta_rad : ℝ) : ℝ :=
  (((0 * theta_rad + 829700) * theta_rad + (-1750)) * theta_rad + 13940) * theta_rad + 0

/-- One iteration of the Newton loop of `Hardware::radial_dist2ang`:
`theta_rad -= error / (inv_delta * (distdelta - distcur))` with
`delta_theta = 1e-4`, `inv_delta = 1e4`. -/
noncomputable def newtonStep (dist_mm θ : ℝ) : ℝ :=
  θ - (radial_ang2dist θ - dist_mm) /
      (10000 * (radial_ang2dist (θ + 1 / 10000) - radial_ang2dist θ))

/-- The `while (abs(error) > 1e-7)` loop of `Hardware::radial_dist2ang`,
modelled with explicit fuel.  Each pass computes the error at the current
angle, applies the Newton update, and the loop exits (returning the
already-updated angle) when that error was within tolerance — exactly the
update/test order of the source. -/
noncomputable def radial_dist2ang_loop (dist_mm : ℝ) : ℕ → ℝ → Option ℝ
  | 0, _ => none
  | n + 1, θ =>
      if |radial_ang2dist θ - dist_mm| > 1 / 10 ^ 7 then
        radial_dist2ang_loop dist_mm n (newtonStep dist_mm θ)
      else
        some (newtonStep dist_mm θ)

/-- Embeds `Hardware::radial_dist2ang` from the starting guess `0.01` rad, with
fuel; an exhausted fuel (the C++ loop not having exited) is reported as `0`. -/
noncomputable def radial_dist2ang (fuel : ℕ) (dist_mm : ℝ) : ℝ :=
  (radial_dist2ang_loop dist_mm fuel (1 / 100)).getD 0

/-- The difference quotient of the radial cubic between `θ` and `r`:
`radial_ang2dist θ - radial_ang2dist r = (θ - r) * newtonQ θ r`. -/
noncomputable def newtonQ (θ r : ℝ) : ℝ :=
  829700 * (θ ^ 2 + θ * r + r ^ 2) - 1750 * (θ + r) + 13940

/-- The finite-difference slope used by the Newton loop,
`inv_delta * (distdelta - distcur)`. -/
noncomputable def newtonD (θ : ℝ) : ℝ :=
  10000 * (radial_ang2dist (θ + 1 / 10000) - radial_ang2dist θ)

/-! ## Angle-range check and positioner kinematics (hardware.cpp lines 421-600) -/

open Classical in
/-- Embeds `_check_angle_range` (hardware.cpp line 421).  The C++ mutates `ang`
in place and returns an out-of-range flag; here the pair
(wrapped angle, flag) is returned.  The angle is shifted up by `2π` if
below `ang_zero + ang_min`, then down by `2π` if above
`ang_zero + ang_max`, and the flag is set when it is still outside
the range. -/
noncomputable def check_angle_range (ang ang_zero ang_min ang_max : ℝ) : ℝ × Bool :=
  let twopi := 2 * Real.pi
  let abs_min := ang_zero + ang_min
  let abs_max := ang_zero + ang_max
  let a1 := if ang < abs_min then ang + twopi else ang
  let a2 := if a1 > abs_max then a1 - twopi else a1
  (a2, decide (a2 < abs_min ∨ a2 > abs_max))

/-- Embeds `Hardware::move_positioner_thetaphi` (hardware.cpp line 442).  The C++
mutates the two shapes in place and returns a failure flag; here the
triple (flag, θ-shape, φ-shape) is returned.  On an out-of-range angle the
shapes are returned exactly as given. -/
noncomputable def move_positioner_thetaphi (shptheta shpphi : shape) (center : Point)
    (theta phi theta_arm phi_arm theta_zero phi_zero
     theta_min phi_min theta_max phi_max : ℝ) : Bool × shape × shape :=
  let cphi := check_angle_range phi phi_zero phi_min phi_max
  let ctheta := check_angle_range theta theta_zero theta_min theta_max
  if cphi.2 || ctheta.2 then (true, shptheta, shpphi)
  else
    let cstheta : Point := (Real.cos ctheta.1, Real.sin ctheta.1)
    let csphi : Point := (Real.cos cphi.1, Real.sin cphi.1)
    let phi1 := shpphi.transl (theta_arm, 0)
    let theta1 := shptheta.rotation_origin cstheta
    let phi2 := phi1.rotation_origin cstheta
    let phi3 := phi2.rotation csphi
    let phi4 := phi3.transl center
    let theta2 := theta1.transl center
    (false, theta2, phi4)

open Classical in
/-- Embeds `Hardware::xy_to_thetaphi` (hardware.cpp line 498).  The C++ writes
θ and φ through references and returns a failure flag; here
(flag, θ, φ) is returned.  The two unreachable middle-branch cases return
the initial values `θ = 0`, `φ = π` without running the range checks,
exactly as the source does. -/
noncomputable def xy_to_thetaphi (center position : Point)
    (theta_arm phi_arm theta_zero phi_zero
     theta_min phi_min theta_max phi_max : ℝ) : Bool × ℝ × ℝ :=
  let offset := subp position center
  let sq_theta_arm := theta_arm * theta_arm
  let sq_phi_arm := phi_arm * phi_arm
  let sq_offset := sqv offset
  let sq_total_arm := sqs (theta_arm + phi_arm)
  let sq_diff_arm := sqs (theta_arm - phi_arm)
  if |sq_offset - sq_total_arm| ≤ flt_epsilon then
    let phi := (0 : ℝ)
    let theta := atan2 offset.2 offset.1
    let cphi := check_angle_range phi phi_zero phi_min phi_max
    let ctheta := check_angle_range theta theta_zero theta_min theta_max
    (cphi.2 || ctheta.2, ctheta.1, cphi.1)
  else if |sq_diff_arm - sq_offset| ≤ flt_epsilon then
    let phi := Real.pi
    let theta := atan2 offset.2 offset.1
    let cphi := check_angle_range phi phi_zero phi_min phi_max
    let ctheta := check_angle_range theta theta_zero theta_min theta_max
    (cphi.2 || ctheta.2, ctheta.1, cphi.1)
  else if sq_total_arm < sq_offset then (true, 0, Real.pi)
  else if sq_offset < sq_diff_arm then (true, 0, Real.pi)
  else
    let opening := Real.arccos ((sq_theta_arm + sq_phi_arm - sq_offset)
                                 / (2 * theta_arm * phi_arm))
    let phi := Real.pi - opening
    let nrm_offset := Real.sqrt sq_offset
    let txy := Real.arccos ((sq_theta_arm + sq_offset - sq_phi_arm)
                             / (2 * theta_arm * nrm_offset))
    let theta := atan2 offset.2 offset.1 - txy
    let cphi := check_angle_range phi phi_zero phi_min phi_max
    let ctheta := check_angle_range theta theta_zero theta_min theta_max
    (cphi.2 || ctheta.2, ctheta.1, cphi.1)

/-- Embeds `Hardware::move_positioner_xy` (hardware.cpp line 579): inverse
kinematics followed by the forward placement; on failure the shapes are
returned unchanged. -/
noncomputable def move_positioner_xy (shptheta shpphi : shape) (center position : Point)
    (theta_arm phi_arm theta_zero phi_zero
     theta_min phi_min theta_max phi_max : ℝ) : Bool × shape × shape :=
  let r := xy_to_thetaphi center position theta_arm phi_arm theta_zero phi_zero
             theta_min phi_min theta_max phi_max
  if r.1 then (true, shptheta, shpphi)
  else move_positioner_thetaphi shptheta shpphi center r.2.1 r.2.2 theta_arm phi_arm
         theta_zero phi_zero theta_min phi_min theta_max phi_max

/-! ## The Hardware object (hardware.cpp lines 19-178)

The C++ `std::map` members keyed by location id are modelled as total
functions out of `ℤ`; every theorem about them is stated at location ids
that the construction actually populated. -/

/-- The constructed Hardware state. -/
structure Hardware where
  nloc : ℕ
  npetal : ℤ
  locations : List ℤ
  loc_petal : ℤ → ℤ
  loc_device : ℤ → ℤ
  loc_device_type : ℤ → String
  loc_fiber : ℤ → ℤ
  loc_slitblock : ℤ → ℤ
  loc_blockfiber : ℤ → ℤ
  petal_locations : ℤ → List ℤ
  loc_pos_xy_mm : ℤ → Point
  state : ℤ → ℤ
  neighbors : ℤ → List ℤ
  loc_theta_offset : ℤ → ℝ
  loc_theta_min : ℤ → ℝ
  loc_theta_max : ℤ → ℝ
  loc_theta_arm : ℤ → ℝ
  loc_phi_offset : ℤ → ℝ
  loc_phi_min : ℤ → ℝ
  loc_phi_max : ℤ → ℝ
  loc_phi_arm : ℤ → ℝ
  loc_theta_excl : ℤ → shape
  loc_phi_excl : ℤ → shape
  loc_gfa_excl : ℤ → shape
  loc_petal_excl : ℤ → shape

/-- One `map[key] = value` store. -/
def updMap (f : ℤ → α) (k : ℤ) (v : α) : ℤ → α :=
  fun q => if q = k then v else f q

/-- A sequence of `map[key] = value` stores, first pair applied first, so a
later pair with the same key overwrites an earlier one — the order of the
constructor's `for (i = 0; i < nloc; ++i)` loop. -/
def foldUpd (ps : List (ℤ × α)) (f : ℤ → α) : ℤ → α :=
  ps.foldl (fun g kv => updMap g kv.1 kv.2) f

/-- The per-location map built by the constructor loop from parallel `keys`
and `vals` arrays. -/
def buildMap (keys : List ℤ) (vals : List α) (dflt : α) : ℤ → α :=
  foldUpd (keys.zip vals) (fun _ => dflt)

/-- Constant `neighbor_radius_mm = 14.05` (hardware.cpp line 145). -/
noncomputable def neighbor_radius_mm : ℝ := 14.05

/-- Constant `focalplane_radius_deg = 1.65` (hardware.cpp line 141). -/
noncomputable def focalplane_radius_deg : ℝ := 1.65

/-- Constant `patrol_buffer_mm = 0.2` (hardware.cpp line 150). -/
noncomputable def patrol_buffer_mm : ℝ := 0.2

/-- Constant `nfiber_petal = 500` (hardware.cpp line 137). -/
def nfiber_petal : ℕ := 500

/-- The ordered index pairs `(x, y)` with `x < y < n` visited by the
nested neighbor-scan loops (hardware.cpp lines 153-164), in loop order. -/
def indexPairs (n : ℕ) : List (ℕ × ℕ) :=
  (List.range n).flatMap (fun x => ((List.range n).filter (fun y => x < y)).map (fun y => (x, y)))

/-- Embeds `neighbors[k].push_back(v)`. -/
def addNeighbor (f : ℤ → List ℤ) (k v : ℤ) : ℤ → List ℤ :=
  fun q => if q = k then f k ++ [v] else f q

open Classical in
/-- One inner iteration of the neighbor scan: push the edge in both
directions when the centers are within `neighbor_radius_mm`. -/
noncomputable def neighborStep (ids : List ℤ) (pos : ℤ → Point)
    (f : ℤ → List ℤ) (xy : ℕ × ℕ) : ℤ → List ℤ :=
  let xid := ids.getD xy.1 0
  let yid := ids.getD xy.2 0
  if dist (pos xid) (pos yid) ≤ neighbor_radius_mm then
    addNeighbor (addNeighbor f xid yid) yid xid
  else f

/-- The neighbor adjacency map built by the O(N²) scan over the sorted
location list. -/
noncomputable def neighborsOf (ids : List ℤ) (pos : ℤ → Point) : ℤ → List ℤ :=
  (indexPairs ids.length).foldl (neighborStep ids pos) (fun _ => [])

/-- Embeds `maxpetal` as computed by the constructor: the running maximum of the
petal array starting from `0`. -/
def maxpetalOf (petal : List ℤ) : ℤ :=
  petal.foldl (fun m p => if p > m then p else m) 0

/-- The per-petal location lists (`petal_locations`), keyed by petal,
filled in input order and then sorted ascending. -/
def petalLocationsOf (petal location : List ℤ) : ℤ → List ℤ :=
  fun pt => ((petal.zip location).filter (fun pl => pl.1 = pt)).map Prod.snd
              |>.insertionSort (· ≤ ·)

open Classical in
/-- Embeds `fba::Hardware::Hardware` (hardware.cpp lines 19-178), whose
parameters are the parallel arrays below, in the order of the C++
signature.  Angle fields are converted from degrees to radians on ingest;
per-location maps are filled in input order (a duplicate location id
silently overwrites the earlier entry, in every map); `locations` is
sorted ascending; the neighbor graph is the pairwise scan; the GFA and
petal exclusion polygons of every stored location are rotated by the
petal angle `fmod((7 + petal)·36, 360)` degrees.  The constructor
performs no input validation and cannot fail. -/
noncomputable def mkHardware (location petal device slitblock blockfiber fiber : List ℤ)
    (device_type : List String) (x_mm y_mm : List ℝ) (status : List ℤ)
    (theta_offset theta_min theta_max theta_arm phi_offset phi_min phi_max phi_arm : List ℝ)
    (excl_theta excl_phi excl_gfa excl_petal : List shape) : Hardware :=
  let deg : ℝ := Real.pi / 180
  let ids := location
  let pos := buildMap ids (x_mm.zip y_mm) ((0 : ℝ), (0 : ℝ))
  let sorted := ids.insertionSort (· ≤ ·)
  let petalMap := buildMap ids petal 0
  let gfa0 := buildMap ids excl_gfa default
  let petalExcl0 := buildMap ids excl_petal default
  let csang : ℤ → Point := fun l =>
    let petalrot_rad := fmodReal ((7 + (petalMap l : ℝ)) * 36) 360 * deg
    (Real.cos petalrot_rad, Real.sin petalrot_rad)
  { nloc := ids.length
    npetal := maxpetalOf petal + 1
    locations := sorted
    loc_petal := petalMap
    loc_device := buildMap ids device 0
    loc_device_type := buildMap ids device_type ""
    loc_fiber := buildMap ids fiber 0
    loc_slitblock := buildMap ids slitblock 0
    loc_blockfiber := buildMap ids blockfiber 0
    petal_locations := petalLocationsOf petal ids
    loc_pos_xy_mm := pos
    state := buildMap ids status 0
    neighbors := neighborsOf sorted pos
    loc_theta_offset := buildMap ids (theta_offset.map (· * deg)) 0
    loc_theta_min := buildMap ids (theta_min.map (· * deg)) 0
    loc_theta_max := buildMap ids (theta_max.map (· * deg)) 0
    loc_theta_arm := buildMap ids theta_arm 0
    loc_phi_offset := buildMap ids (phi_offset.map (· * deg)) 0
    loc_phi_min := buildMap ids (phi_min.map (· * deg)) 0
    loc_phi_max := buildMap ids (phi_max.map (· * deg)) 0
    loc_phi_arm := buildMap ids phi_arm 0
    loc_theta_excl := buildMap ids excl_theta default
    loc_phi_excl := buildMap ids excl_phi default
    loc_gfa_excl := fun l =>
      if l ∈ sorted then (gfa0 l).rotation_origin (csang l) else gfa0 l
    loc_petal_excl := fun l =>
      if l ∈ sorted then (petalExcl0 l).rotation_origin (csang l) else petalExcl0 l }

/-! ## Placement and collisions (hardware.cpp lines 603-961) -/

/-- Embeds `Hardware::loc_position_xy` (hardware.cpp line 623): start from the
location's θ/φ exclusion polygons and move the positioner to cover the
X/Y position. -/
noncomputable def loc_position_xy (hw : Hardware) (loc : ℤ) (xy : Point) :
    Bool × shape × shape :=
  move_positioner_xy (hw.loc_theta_excl loc) (hw.loc_phi_excl loc)
    (hw.loc_pos_xy_mm loc) xy
    (hw.loc_theta_arm loc) (hw.loc_phi_arm loc)
    (hw.loc_theta_offset loc) (hw.loc_phi_offset loc)
    (hw.loc_theta_min loc) (hw.loc_phi_min loc)
    (hw.loc_theta_max loc) (hw.loc_phi_max loc)

/-- Embeds `Hardware::collide_xy` (hardware.cpp line 678): place both
positioners (an unreachable placement counts as a collision) and test the
three shape pairs φ₁·φ₂, θ₁·φ₂, θ₂·φ₁ in the order of the source. -/
noncomputable def collide_xy (hw : Hardware) (loc1 : ℤ) (xy1 : Point)
    (loc2 : ℤ) (xy2 : Point) : Bool :=
  let r1 := loc_position_xy hw loc1 xy1
  if r1.1 then true
  else
    let r2 := loc_position_xy hw loc2 xy2
    if r2.1 then true
    else if intersectB r1.2.2 r2.2.2 then true
    else if intersectB r1.2.1 r2.2.2 then true
    else if intersectB r2.2.1 r1.2.2 then true
    else false

/-- Embeds `Hardware::loc_position_xy_multi` (hardware.cpp line 795): the
OpenMP loop writes each `result[f]` independently; the output is the
elementwise placement.  The thread-count clamping of the source is kept;
it does not influence the output. -/
noncomputable def loc_position_xy_multi (hw : Hardware) (locs : List ℤ)
    (xys : List Point) (threads : ℤ) : List (Bool × shape × shape) :=
  let max_threads : ℤ := 1
  let run_threads := if threads > 0 then threads else max_threads
  let run_threads2 := if run_threads > max_threads then max_threads else run_threads
  let _ := run_threads2
  (locs.zip xys).map (fun lx => loc_position_xy hw lx.1 lx.2)

/-- An id → position map filled by `m[l[i]] = i` for `i` ascending, so a
later occurrence of an id overwrites an earlier one; ids never assigned
have no entry. -/
def idxMap (l : List ℤ) : ℤ → Option ℕ :=
  l.enum.foldl (fun f it => fun q => if q = it.2 then some it.1 else f q) (fun _ => none)

/-- The `loc_indx` map of `check_collisions_xy` (hardware.cpp line 870):
location id to index in the supplied list, later indices overwriting
earlier ones; absent ids have no entry, and `.at` on them throws
(modelled by `none`). -/
def locIndxOf (locs : List ℤ) : ℤ → Option ℕ := idxMap locs

/-- Order an unordered neighbor pair as (low, high)
(hardware.cpp lines 878-886). -/
def orient (a b : ℤ) : ℤ × ℤ := if a < b then (a, b) else (b, a)

/-- Insert one (low, high) pair into the `checklookup` map unless already
present (the linear `found` scan of hardware.cpp lines 890-898); the
second component tracks the set of keys of the `std::map`, in insertion
order. -/
def addPairStep (acc : (ℤ → List ℤ) × List ℤ) (low high : ℤ) :
    (ℤ → List ℤ) × List ℤ :=
  if high ∈ acc.1 low then acc
  else (fun q => if q = low then acc.1 low ++ [high] else acc.1 q,
        if low ∈ acc.2 then acc.2 else acc.2 ++ [low])

/-- The `checklookup` construction of `check_collisions_xy`
(hardware.cpp lines 873-901): for every supplied location, every
precomputed neighbor contributes its oriented pair, deduplicated. -/
def buildCheckLookup (nbrs : ℤ → List ℤ) (locs : List ℤ) :
    (ℤ → List ℤ) × List ℤ :=
  locs.foldl (fun acc lid =>
    (nbrs lid).foldl (fun acc2 nb =>
      let ow := orient lid nb
      addPairStep acc2 ow.1 ow.2) acc)
    ((fun _ => []), [])

/-- The flattened `checkpairs` list (hardware.cpp lines 902-908): the
`std::map` is iterated in ascending key order, each key's highs in
insertion order. -/
def checkPairs (nbrs : ℤ → List ℤ) (locs : List ℤ) : List (ℤ × ℤ) :=
  let cl := buildCheckLookup nbrs locs
  (cl.2.insertionSort (· ≤ ·)).flatMap (fun low => (cl.1 low).map (fun high => (low, high)))

/-- The per-pair collision test of the batch loop
(hardware.cpp lines 942-951), with `p` the placement of the low and `q`
of the high location: a failed placement counts as a hit, otherwise the
three shape pairs are tested. -/
noncomputable def pairHit (p q : Bool × shape × shape) : Bool :=
  p.1 || q.1 || intersectB p.2.2 q.2.2 || intersectB p.2.1 q.2.2 || intersectB q.2.1 p.2.2

/-- The marking loop of `check_collisions_xy` (hardware.cpp lines
930-959): for each pair look both members up in `loc_indx` (`.at` throws,
modelled by `none`, when a member was not supplied) and on a hit set both
result slots. -/
noncomputable def markPairs (fpos : List (Bool × shape × shape)) (locIdx : ℤ → Option ℕ) :
    List (ℤ × ℤ) → List Bool → Option (List Bool)
  | [], res => some res
  | (flow, fhigh) :: rest, res =>
    match locIdx flow, locIdx fhigh with
    | some i1, some i2 =>
        let p1 := fpos.getD i1 (true, default, default)
        let p2 := fpos.getD i2 (true, default, default)
        markPairs fpos locIdx rest
          (if pairHit p1 p2 then (res.set i1 true).set i2 true else res)
    | _, _ => none

/-- Embeds `Hardware::check_collisions_xy` (hardware.cpp line 862): place all
supplied positioners, build the deduplicated neighbor pair list from the
precomputed graph, and mark every supplied location participating in a
colliding pair.  The result is `none` when the source would throw
`std::out_of_range` from `loc_indx.at` (a pair member that was not
supplied). -/
noncomputable def check_collisions_xy (hw : Hardware) (locs : List ℤ)
    (xys : List Point) (threads : ℤ) : Option (List Bool) :=
  let fpos := loc_position_xy_multi hw locs xys threads
  markPairs fpos (locIndxOf locs) (checkPairs hw.neighbors locs)
    (List.replicate locs.length false)

/-! ## Sky ↔ focal plane (hardware.cpp lines 234-418) -/

/-- Embeds `Hardware::radec2xy` (hardware.cpp line 234). -/
noncomputable def radec2xy (tilera tiledec tiletheta ra dec : ℝ) : Point :=
  let deg_to_rad := Real.pi / 180
  let inc_rad := (90 - dec) * deg_to_rad
  let ra_rad := ra * deg_to_rad
  let tilera_rad := tilera * deg_to_rad
  let tiledec_rad := tiledec * deg_to_rad
  let tiletheta_rad := tiletheta * deg_to_rad
  let sin_inc_rad := Real.sin inc_rad
  let x0 := sin_inc_rad * Real.cos ra_rad
  let y0 := sin_inc_rad * Real.sin ra_rad
  let z0 := Real.cos inc_rad
  let cos_tilera_rad := Real.cos tilera_rad
  let sin_tilera_rad := Real.sin tilera_rad
  let x1 := cos_tilera_rad * x0 + sin_tilera_rad * y0
  let y1 := -sin_tilera_rad * x0 + cos_tilera_rad * y0
  let z1 := z0
  let cos_tiledec_rad := Real.cos tiledec_rad
  let sin_tiledec_rad := Real.sin tiledec_rad
  let x := cos_tiledec_rad * x1 + sin_tiledec_rad * z1
  let y := y1
  let z := -sin_tiledec_rad * x1 + cos_tiledec_rad * z1
  let ra_ang_rad0 := atan2 y x
  let ra_ang_rad := if ra_ang_rad0 < 0 then 2 * Real.pi + ra_ang_rad0 else ra_ang_rad0
  let dec_ang_rad := Real.pi / 2 - Real.arccos (z / Real.sqrt (x * x + y * y + z * z))
  let radius_rad := 2 * Real.arcsin (Real.sqrt
    (Real.sin (dec_ang_rad / 2) ^ 2 + Real.cos dec_ang_rad * Real.sin (ra_ang_rad / 2) ^ 2))
  let q_rad := atan2 z (-y)
  let radius_mm := radial_ang2dist radius_rad
  let rotated := q_rad + tiletheta_rad
  (radius_mm * Real.cos rotated, radius_mm * Real.sin rotated)

/-- One `(index, value)` write per loop iteration of an OpenMP
`parallel for` over disjoint output slots, in canonical index order. -/
def ompWrites (n : ℕ) (g : ℕ → α) : List (ℕ × α) := (List.range n).map (fun t => (t, g t))

/-- Replay a list of index/value writes into a pre-sized output buffer. -/
def applyWrites (ws : List (ℕ × α)) (res : List α) : List α :=
  ws.foldl (fun acc w => acc.set w.1 w.2) res

/-- Embeds `Hardware::radec2xy_multi` (hardware.cpp line 292): a pre-sized output
vector written once per index by the data-parallel loop.  The thread-count
clamping of the source is kept; it does not influence the writes. -/
noncomputable def radec2xy_multi (tilera tiledec tiletheta : ℝ)
    (ra dec : List ℝ) (threads : ℤ) : List Point :=
  let ntg := ra.length
  let max_threads : ℤ := 1
  let run_threads := if threads > 0 then threads else max_threads
  let run_threads2 := if run_threads > max_threads then max_threads else run_threads
  let _ := run_threads2
  applyWrites
    (ompWrites ntg (fun t => radec2xy tilera tiledec tiletheta (ra.getD t 0) (dec.getD t 0)))
    (List.replicate ntg ((0 : ℝ), (0 : ℝ)))

/-- Embeds `Hardware::xy2radec` (hardware.cpp line 324).  The call to
`radial_dist2ang` is the fuel-modelled Newton inversion. -/
noncomputable def xy2radec (fuel : ℕ) (tilera tiledec tiletheta x_mm y_mm : ℝ) : ℝ × ℝ :=
  let deg_to_rad := Real.pi / 180
  let rad_to_deg := 180 / Real.pi
  let tilera_rad := tilera * deg_to_rad
  let tiledec_rad := tiledec * deg_to_rad
  let tiletheta_rad := tiletheta * deg_to_rad
  let radius_mm := Real.sqrt (x_mm * x_mm + y_mm * y_mm)
  let radius_rad := radial_dist2ang fuel radius_mm
  let rotated := atan2 y_mm x_mm
  let q_rad := rotated - tiletheta_rad
  let x1 := Real.cos radius_rad
  let y1 := -Real.sin radius_rad
  let x2 := x1
  let y2 := y1 * Real.cos q_rad
  let z2 := -y1 * Real.sin q_rad
  let cos_tiledec := Real.cos tiledec_rad
  let sin_tiledec := Real.sin tiledec_rad
  let cos_tilera := Real.cos tilera_rad
  let sin_tilera := Real.sin tilera_rad
  let x3 := cos_tiledec * x2 - sin_tiledec * z2
  let y3 := y2
  let z3 := sin_tiledec * x2 + cos_tiledec * z2
  let x4 := cos_tilera * x3 - sin_tilera * y3
  let y4 := sin_tilera * x3 + cos_tilera * y3
  let z4 := z3
  let ra_rad0 := atan2 y4 x4
  let ra_rad := if ra_rad0 < 0 then 2 * Real.pi + ra_rad0 else ra_rad0
  let dec_rad := Real.pi / 2 - Real.arccos z4
  let ra := fmodReal (ra_rad * rad_to_deg) 360
  let dec := dec_rad * rad_to_deg
  (ra, dec)

/-- Embeds `Hardware::xy2radec_multi` (hardware.cpp line 390): the elementwise
data-parallel form of `xy2radec`. -/
noncomputable def xy2radec_multi (fuel : ℕ) (tilera tiledec tiletheta : ℝ)
    (x_mm y_mm : List ℝ) (threads : ℤ) : List (ℝ × ℝ) :=
  let npos := x_mm.length
  let max_threads : ℤ := 1
  let run_threads := if threads > 0 then threads else max_threads
  let run_threads2 := if run_threads > max_threads then max_threads else run_threads
  let _ := run_threads2
  applyWrites
    (ompWrites npos (fun i => xy2radec fuel tilera tiledec tiletheta (x_mm.getD i 0) (y_mm.getD i 0)))
    (List.replicate npos ((0 : ℝ), (0 : ℝ)))

/-! ## Tiles (tiles.cpp lines 11-34) -/

/-- The constructed Tiles state: parallel arrays plus the
tile-id → position reverse index. -/
structure Tiles where
  hw : Hardware
  id : List ℤ
  ra : List ℝ
  dec : List ℝ
  obscond : List ℤ
  order : ℤ → Option ℕ

/-- Embeds `fba::Tiles::Tiles` (tiles.cpp line 11): stores the parallel arrays
and fills `order[id[i]] = i` for `i` ascending, so a duplicated tile id
keeps the position of its last occurrence. -/
noncomputable def mkTiles (hw : Hardware) (ids : List ℤ) (ras decs : List ℝ)
    (obs : List ℤ) : Tiles :=
  { hw := hw
    id := ids
    ra := ras
    dec := decs
    obscond := obs
    order := idxMap ids }

/-! ## Concrete inputs used by witnesses -/

/-- The hardware built from an empty input (no locations). -/
noncomputable def emptyHW : Hardware :=
  mkHardware [] [] [] [] [] [] [] [] [] [] [] [] [] [] [] [] [] [] [] [] [] []

/-- The validity condition §7 of the spec asserts the constructor
enforces, written from the spec's words for comparison with the code:
unique location ids, petal indices in range (the focal plane has 10
petals), nonnegative arm lengths, and each angle minimum below its
maximum. -/
def SpecValidHWInput (location petal : List ℤ)
    (theta_min theta_max theta_arm phi_min phi_max phi_arm : List ℝ) : Prop :=
  location.Nodup ∧
  (∀ p ∈ petal, 0 ≤ p ∧ p < 10) ∧
  (∀ a ∈ theta_arm, 0 ≤ a) ∧
  (∀ a ∈ phi_arm, 0 ≤ a) ∧
  (∀ i, i < location.length →
    theta_min.getD i 0 < theta_max.getD i 0 ∧
    phi_min.getD i 0 < phi_max.getD i 0)

/-- The hardware built from an input with a duplicated location id (id 5
appears twice, with different petals, centers (0,0) then (1,0)). -/
noncomputable def dupHW : Hardware :=
  mkHardware [5, 5] [0, 1] [0, 0] [0, 0] [0, 0] [0, 0] ["POS", "POS"]
    [0, 1] [0, 0] [0, 0] [0, 0] [-180, -180] [180, 180] [3, 3]
    [0, 0] [-20, -20] [200, 200] [3, 3]
    [default, default] [default, default] [default, default] [default, default]

/-- The hardware built from an input with two locations, ids 5 and 9,
centers 1 mm apart, arm lengths 3 mm. -/
noncomputable def twoLocHW : Hardware :=
  mkHardware [5, 9] [0, 0] [0, 0] [0, 0] [0, 0] [0, 0] ["POS", "POS"]
    [0, 1] [0, 0] [0, 0] [0, 0] [-180, -180] [180, 180] [3, 3]
    [0, 0] [-20, -20] [200, 200] [3, 3]
    [default, default] [default, default] [default, default] [default, default]

/-- The multiset of oriented pairs the `checklookup` loops feed into
`addPairStep`, in visit order. -/
def genPairs (nbrs : ℤ → List ℤ) (locs : List ℤ) : List (ℤ × ℤ) :=
  locs.flatMap (fun lid => (nbrs lid).map (fun nb => orient lid nb))

/-! ## Characterizations of the map-building folds -/

/-- A run of `m[l[i]] = i` assignments leaves ids it never touches at the
initial map. -/
lemma idxFold_not_mem (l : List (ℕ × ℤ)) (f : ℤ → Option ℕ) (t : ℤ)
    (h : ∀ it ∈ l, it.2 ≠ t) :
    l.foldl (fun g it => fun q => if q = it.2 then some it.1 else g q) f t = f t := by
  induction l generalizing f with
  | nil => rfl
  | cons a l ih =>
      rw [List.foldl_cons, ih _ (fun it hit => h it (List.mem_cons_of_mem _ hit))]
      exact if_neg (fun hh => h a (List.mem_cons_self a l) hh.symm)

/-- After the whole assignment run, an id whose last occurrence in `l` is at
index `i` is mapped to `n + i` (the enumeration starting at `n`). -/
lemma idxFold_last (l : List ℤ) (n : ℕ) (f : ℤ → Option ℕ) (i : ℕ)
    (hi : i < l.length)
    (hlast : ∀ j, i < j → j < l.length → l.getD j 0 ≠ l.getD i 0) :
    (List.enumFrom n l).foldl (fun g it => fun q => if q = it.2 then some it.1 else g q) f
      (l.getD i 0) = some (n + i) := by
  induction l generalizing n f i with
  | nil => simp at hi
  | cons a l ih =>
      have hcons : List.enumFrom n (a :: l) = (n, a) :: List.enumFrom (n + 1) l := by
        simp [List.enumFrom]
      cases i with
      | zero =>
          have hnot : ∀ it ∈ List.enumFrom (n + 1) l, it.2 ≠ (a :: l).getD 0 0 := by
            intro it hit
            have hsnd : it.2 ∈ l := by
              have := List.mem_map_of_mem Prod.snd hit
              rwa [List.enumFrom_map_snd] at this
            rcases List.mem_iff_get.mp hsnd with ⟨⟨j, hj⟩, hget⟩
            have h2 := hlast (j + 1) (Nat.succ_pos j) (by simpa using Nat.succ_lt_succ hj)
            rw [List.getD_cons_succ, List.getD_eq_getElem _ _ hj] at h2
            rw [← hget, List.get_eq_getElem]
            exact h2
          rw [hcons, List.foldl_cons, idxFold_not_mem _ _ _ hnot]
          simp [List.getD_cons_zero]
      | succ i =>
          rw [hcons, List.foldl_cons, List.getD_cons_succ]
          have hlast' : ∀ j, i < j → j < l.length → l.getD j 0 ≠ l.getD i 0 := by
            intro j hij hj
            have := hlast (j + 1) (Nat.succ_lt_succ hij) (by simpa using Nat.succ_lt_succ hj)
            simpa [List.getD_cons_succ] using this
          have h2 := ih (n + 1) (fun q => if q = a then some n else f q) i
            (by simpa using hi) hlast'
          have h3 : some (n + 1 + i) = some (n + (i + 1)) := by
            congr 1
            omega
          exact h2.trans h3

/-- Value of `idxMap` at the last occurrence of an id. -/
lemma idxMap_last (l : List ℤ) (i : ℕ) (hi : i < l.length)
    (hlast : ∀ j, i < j → j < l.length → l.getD j 0 ≠ l.getD i 0) :
    idxMap l (l.getD i 0) = some i := by
  have := idxFold_last l 0 (fun _ => none) i hi hlast
  simpa [idxMap, List.enum] using this

/-- Absent ids have no entry in `idxMap`. -/
lemma idxMap_not_mem (l : List ℤ) (t : ℤ) (h : t ∉ l) : idxMap l t = none := by
  unfold idxMap
  rw [idxFold_not_mem]
  intro it hit
  have hsnd : it.2 ∈ l := by
    have := List.mem_map_of_mem Prod.snd hit
    rwa [show List.enum l = List.enumFrom 0 l from rfl, List.enumFrom_map_snd] at this
  exact fun hh => h (hh ▸ hsnd)

/-- Over a duplicate-free list, `idxMap` inverts indexing. -/
lemma idxMap_nodup (l : List ℤ) (hnd : l.Nodup) (i : ℕ) (hi : i < l.length) :
    idxMap l (l.getD i 0) = some i := by
  refine idxMap_last l i hi ?_
  intro j hij hj hEq
  have h2 : l.get ⟨j, hj⟩ = l.get ⟨i, hi⟩ := by
    rw [List.getD_eq_getElem _ _ hj, List.getD_eq_getElem _ _ hi] at hEq
    simpa [List.get_eq_getElem] using hEq
  have h3 : j = i := by simpa using (List.Nodup.get_inj_iff hnd).mp h2
  omega

/-- Unfolding one store of a `map[key] = value` run. -/
lemma foldUpd_cons {α : Type} (p : ℤ × α) (ps : List (ℤ × α)) (f : ℤ → α) :
    foldUpd (p :: ps) f = foldUpd ps (updMap f p.1 p.2) := rfl

/-- A run of `map[key] = value` stores leaves keys it never touches at the
initial map. -/
lemma foldUpd_not_mem {α : Type} (ps : List (ℤ × α)) (f : ℤ → α) (q : ℤ)
    (h : ∀ kv ∈ ps, kv.1 ≠ q) : foldUpd ps f q = f q := by
  induction ps generalizing f with
  | nil => rfl
  | cons a ps ih =>
      rw [foldUpd_cons, ih _ (fun kv hkv => h kv (List.mem_cons_of_mem _ hkv))]
      exact if_neg (fun hh => h a (List.mem_cons_self a ps) hh.symm)

/-- A run of stores from parallel `keys`/`vals` arrays, at the last
occurrence of a key, returns the parallel value, whatever the initial map. -/
lemma foldUpdZip_last {α : Type} (keys : List ℤ) (vals : List α) (f : ℤ → α) (dv : α) (i : ℕ)
    (hik : i < keys.length) (hiv : i < vals.length)
    (hlast : ∀ j, i < j → j < keys.length → keys.getD j 0 ≠ keys.getD i 0) :
    foldUpd (keys.zip vals) f (keys.getD i 0) = vals.getD i dv := by
  induction keys generalizing vals f i with
  | nil => simp at hik
  | cons a keys ih =>
      cases vals with
      | nil => simp at hiv
      | cons v vals =>
          have hzip : (a :: keys).zip (v :: vals) = (a, v) :: keys.zip vals := rfl
          cases i with
          | zero =>
              have hnot : ∀ kv ∈ keys.zip vals, kv.1 ≠ (a :: keys).getD 0 0 := by
                intro kv hkv
                have hfst : kv.1 ∈ keys := (List.of_mem_zip hkv).1
                rcases List.mem_iff_get.mp hfst with ⟨⟨j, hj⟩, hget⟩
                have h2 := hlast (j + 1) (Nat.succ_pos j) (by simpa using Nat.succ_lt_succ hj)
                rw [List.getD_cons_succ, List.getD_eq_getElem _ _ hj] at h2
                rw [← hget, List.get_eq_getElem]
                exact h2
              rw [hzip, foldUpd_cons, foldUpd_not_mem _ _ _ hnot]
              simp [updMap, List.getD_cons_zero]
          | succ i =>
              rw [hzip, foldUpd_cons, List.getD_cons_succ, List.getD_cons_succ]
              have hlast' : ∀ j, i < j → j < keys.length → keys.getD j 0 ≠ keys.getD i 0 := by
                intro j hij hj
                have := hlast (j + 1) (Nat.succ_lt_succ hij) (by simpa using Nat.succ_lt_succ hj)
                simpa [List.getD_cons_succ] using this
              exact ih vals _ i (by simpa using hik) (by simpa using hiv) hlast'

/-- Value of `buildMap` at the last occurrence of a key is the parallel value. -/
lemma buildMap_last {α : Type} (keys : List ℤ) (vals : List α) (dflt dv : α) (i : ℕ)
    (hik : i < keys.length) (hiv : i < vals.length)
    (hlast : ∀ j, i < j → j < keys.length → keys.getD j 0 ≠ keys.getD i 0) :
    buildMap keys vals dflt (keys.getD i 0) = vals.getD i dv :=
  foldUpdZip_last keys vals _ dv i hik hiv hlast

/-- Value of `buildMap` at a key that never occurs is the default. -/
lemma buildMap_not_mem {α : Type} (keys : List ℤ) (vals : List α) (dflt : α) (q : ℤ)
    (h : q ∉ keys) : buildMap keys vals dflt q = dflt := by
  rw [buildMap, foldUpd_not_mem]
  intro kv hkv
  exact fun hh => h (hh ▸ (List.of_mem_zip hkv).1)

/-! ## C2: constructor validation -/

/-- Counterexample to C2: `dupHW` is built from an input with a duplicate
location id, so the spec calls the input invalid, yet `Hardware`
construction does not fail — it returns a fully formed object with both
rows ingested and the per-location fields of id 5 taken from the later
row. -/
theorem c2_counterexample :
    ¬ SpecValidHWInput [5, 5] [0, 1] [-180, -180] [180, 180] [3, 3]
        [-20, -20] [200, 200] [3, 3] ∧
    dupHW.nloc = 2 ∧
    dupHW.locations = [5, 5] ∧
    dupHW.loc_petal 5 = 1 := by
  refine ⟨fun h => ?_, ?_, ?_, ?_⟩
  · have := h.1
    simp at this
  · rfl
  · decide
  · decide

/-- C2 (amended): `Hardware` construction performs no input validation and
cannot fail; every input — duplicate location ids included — produces a
fully formed object whose location count is the input length, and with a
duplicated location id every per-location field of that id holds the
values of the last occurrence. -/
theorem c2_construction_total (location petal device slitblock blockfiber fiber : List ℤ)
    (device_type : List String) (x_mm y_mm : List ℝ) (status : List ℤ)
    (theta_offset theta_min theta_max theta_arm phi_offset phi_min phi_max phi_arm : List ℝ)
    (excl_theta excl_phi excl_gfa excl_petal : List shape)
    (hw : Hardware)
    (hhw : hw = mkHardware location petal device slitblock blockfiber fiber device_type
      x_mm y_mm status theta_offset theta_min theta_max theta_arm phi_offset phi_min
      phi_max phi_arm excl_theta excl_phi excl_gfa excl_petal)
    (i : ℕ)
    (hik : i < location.length)
    (hip : i < petal.length)
    (hia : i < theta_arm.length)
    (hix : i < x_mm.length)
    (hiy : i < y_mm.length)
    (hlast : ∀ j, i < j → j < location.length →
      location.getD j 0 ≠ location.getD i 0) :
    hw.nloc = location.length ∧
    hw.npetal = maxpetalOf petal + 1 ∧
    hw.loc_petal (location.getD i 0) = petal.getD i 0 ∧
    hw.loc_theta_arm (location.getD i 0) = theta_arm.getD i 0 ∧
    hw.loc_pos_xy_mm (location.getD i 0) =
      (x_mm.getD i 0, y_mm.getD i 0) := by
  subst hhw
  refine ⟨rfl, rfl, ?_, ?_, ?_⟩
  · simpa [mkHardware] using
      buildMap_last location petal 0 0 i hik hip hlast
  · simpa [mkHardware] using
      buildMap_last location theta_arm 0 0 i hik hia hlast
  · have hzl : i < (x_mm.zip y_mm).length := by
      rw [List.length_zip]
      omega
    have h := buildMap_last location (x_mm.zip y_mm)
      ((0 : ℝ), (0 : ℝ)) ((0 : ℝ), (0 : ℝ)) i hik hzl hlast
    have hz : (x_mm.zip y_mm).getD i ((0 : ℝ), (0 : ℝ)) =
        (x_mm.getD i 0, y_mm.getD i 0) := by
      rw [List.getD_eq_getElem _ _ hzl, List.getElem_zip,
          List.getD_eq_getElem _ _ hix, List.getD_eq_getElem _ _ hiy]
    rw [hz] at h
    simpa [mkHardware] using h

/-- Witness for the amended C2 at `dupHW`: index 1 is the last
occurrence of location id 5 and its fields win. -/
theorem c2_construction_total_witness :
    dupHW.nloc = 2 ∧
    dupHW.npetal = maxpetalOf [0, 1] + 1 ∧
    dupHW.loc_petal 5 = 1 ∧
    dupHW.loc_theta_arm 5 = 3 ∧
    dupHW.loc_pos_xy_mm 5 = (1, 0) := by
  have h := c2_construction_total [5, 5] [0, 1] [0, 0] [0, 0] [0, 0] [0, 0] ["POS", "POS"]
    [0, 1] [0, 0] [0, 0] [0, 0] [-180, -180] [180, 180] [3, 3]
    [0, 0] [-20, -20] [200, 200] [3, 3]
    [default, default] [default, default] [default, default] [default, default]
    dupHW rfl 1 (by norm_num) (by norm_num) (by norm_num) (by norm_num) (by norm_num)
    (by
      intro j hj1 hj2
      simp only [List.length_cons, List.length_nil] at hj2
      omega)
  simpa using h

/-! ## C10: the Tiles reverse index -/

/-- C10: after `Tiles` construction from parallel arrays, `order` maps a
tile id present in the input to the largest index holding it: whenever `i`
is the last occurrence of its id, `order[id[i]] = i`; with pairwise
distinct ids, `order[id[i]] = i` for every index; duplicate tile ids are
accepted silently with the later position overwriting the earlier one; ids
not in the input have no entry. -/
theorem c10_tiles_order (hw : Hardware) (ids : List ℤ) (ras decs : List ℝ) (obs : List ℤ) :
    (∀ i, i < ids.length → (∀ j, i < j → j < ids.length → ids.getD j 0 ≠ ids.getD i 0) →
      (mkTiles hw ids ras decs obs).order (ids.getD i 0) = some i) ∧
    (ids.Nodup → ∀ i, i < ids.length →
      (mkTiles hw ids ras decs obs).order (ids.getD i 0) = some i) ∧
    (∀ t, t ∉ ids → (mkTiles hw ids ras decs obs).order t = none) := by
  refine ⟨fun i hi hlast => ?_, fun hnd i hi => ?_, fun t ht => ?_⟩
  · simpa [mkTiles] using idxMap_last ids i hi hlast
  · simpa [mkTiles] using idxMap_nodup ids hnd i hi
  · simpa [mkTiles] using idxMap_not_mem ids t ht

/-- Witness for C10 at the concrete tile-id list `[3, 5, 3]`: the
duplicated id 3 maps to its last position 2, id 5 to position 1, and the
absent id 9 to nothing. -/
theorem c10_tiles_order_witness :
    (mkTiles emptyHW [3, 5, 3] [] [] []).order 3 = some 2 ∧
    (mkTiles emptyHW [3, 5, 3] [] [] []).order 5 = some 1 ∧
    (mkTiles emptyHW [3, 5, 3] [] [] []).order 9 = none := by
  obtain ⟨h1, _, h3⟩ := c10_tiles_order emptyHW [3, 5, 3] [] [] []
  refine ⟨?_, ?_, ?_⟩
  · have h := h1 2 (by norm_num) ?_
    · simpa using h
    · intro j hj1 hj2
      simp only [List.length_cons, List.length_nil] at hj2
      omega
  · have h := h1 1 (by norm_num) ?_
    · simpa using h
    · intro j hj1 hj2
      simp only [List.length_cons, List.length_nil] at hj2
      have : j = 2 := by omega
      subst this
      decide
  · exact h3 9 (by decide)

/-! ## C8: out-of-range angles leave the shapes untouched -/

/-- C8: when the requested (θ, φ) angles are out of the allowed range even
after the ±2π wrap, `move_positioner_thetaphi` returns true (unreachable)
without modifying either input shape. -/
theorem c8_move_positioner_unreachable (shptheta shpphi : shape) (center : Point)
    (theta phi theta_arm phi_arm theta_zero phi_zero theta_min phi_min theta_max phi_max : ℝ)
    (h : (check_angle_range phi phi_zero phi_min phi_max).2 = true ∨
         (check_angle_range theta theta_zero theta_min theta_max).2 = true) :
    move_positioner_thetaphi shptheta shpphi center theta phi theta_arm phi_arm
      theta_zero phi_zero theta_min phi_min theta_max phi_max = (true, shptheta, shpphi) := by
  unfold move_positioner_thetaphi
  rcases h with h | h <;> simp [h]

/-- Witness for C8: requesting φ = 10 rad on the range [-1, 1] (zero offset 0)
is out of range even after the wrap, and the shapes come back untouched. -/
theorem c8_move_positioner_unreachable_witness :
    move_positioner_thetaphi default default (0, 0) 0 10 3 3 0 0 (-1) (-1) 1 1 =
      (true, default, default) := by
  have hpi := Real.pi_lt_315
  have hflag : (check_angle_range 10 0 (-1) 1).2 = true := by
    simp only [check_angle_range]
    rw [if_neg (by norm_num : ¬ (10 : ℝ) < 0 + (-1)),
        if_pos (by nlinarith : (10 : ℝ) > 0 + 1)]
    simp only [decide_eq_true_eq]
    right
    nlinarith
  exact c8_move_positioner_unreachable default default (0, 0) 0 10 3 3 0 0 (-1) (-1) 1 1
    (Or.inl hflag)

/-! ## C6: collide_xy symmetry and content -/

/-- Segment crossing is symmetric in the two segments. -/
lemma segCross_comm (p q a b : Point) : segCross p q a b ↔ segCross a b p q := by
  constructor <;> rintro ⟨t, u, ht0, ht1, hu0, hu1, heq⟩ <;>
    exact ⟨u, t, hu0, hu1, ht0, ht1, heq.symm⟩

/-- The intersection test is symmetric. -/
lemma Intersects_comm (A B : shape) : Intersects A B ↔ Intersects B A := by
  unfold Intersects
  constructor <;>
    rintro (⟨e, he, f, hf, hx⟩ | ⟨v, hv, hin⟩ | ⟨v, hv, hin⟩)
  · exact Or.inl ⟨f, hf, e, he, (segCross_comm _ _ _ _).mp hx⟩
  · exact Or.inr (Or.inr ⟨v, hv, hin⟩)
  · exact Or.inr (Or.inl ⟨v, hv, hin⟩)
  · exact Or.inl ⟨f, hf, e, he, (segCross_comm _ _ _ _).mp hx⟩
  · exact Or.inr (Or.inr ⟨v, hv, hin⟩)
  · exact Or.inr (Or.inl ⟨v, hv, hin⟩)

/-- The boolean intersection test is symmetric. -/
lemma intersectB_comm (A B : shape) : intersectB A B = intersectB B A := by
  unfold intersectB
  exact decide_eq_decide.mpr (Intersects_comm A B)

/-- C6: `collide_xy` is symmetric in its two (location, position)
arguments; it returns true whenever either placement is unreachable; and
its value is exactly the disjunction of the two failure flags and the
three shape-pair tests φ₁·φ₂, θ₁·φ₂, θ₂·φ₁ — the two θ bodies are never
tested against each other. -/
theorem c6_collide_xy (hw : Hardware) (loc1 loc2 : ℤ) (xy1 xy2 : Point) :
    collide_xy hw loc1 xy1 loc2 xy2 = collide_xy hw loc2 xy2 loc1 xy1 ∧
    ((loc_position_xy hw loc1 xy1).1 = true ∨ (loc_position_xy hw loc2 xy2).1 = true →
      collide_xy hw loc1 xy1 loc2 xy2 = true) ∧
    collide_xy hw loc1 xy1 loc2 xy2 =
      ((loc_position_xy hw loc1 xy1).1 || (loc_position_xy hw loc2 xy2).1 ||
       intersectB (loc_position_xy hw loc1 xy1).2.2 (loc_position_xy hw loc2 xy2).2.2 ||
       intersectB (loc_position_xy hw loc1 xy1).2.1 (loc_position_xy hw loc2 xy2).2.2 ||
       intersectB (loc_position_xy hw loc2 xy2).2.1 (loc_position_xy hw loc1 xy1).2.2) := by
  have hform : ∀ (l1 l2 : ℤ) (p1 p2 : Point), collide_xy hw l1 p1 l2 p2 =
      ((loc_position_xy hw l1 p1).1 || (loc_position_xy hw l2 p2).1 ||
       intersectB (loc_position_xy hw l1 p1).2.2 (loc_position_xy hw l2 p2).2.2 ||
       intersectB (loc_position_xy hw l1 p1).2.1 (loc_position_xy hw l2 p2).2.2 ||
       intersectB (loc_position_xy hw l2 p2).2.1 (loc_position_xy hw l1 p1).2.2) := by
    intro l1 l2 p1 p2
    unfold collide_xy
    cases hf1 : (loc_position_xy hw l1 p1).1 <;>
      cases hf2 : (loc_position_xy hw l2 p2).1 <;>
      cases hA : intersectB (loc_position_xy hw l1 p1).2.2 (loc_position_xy hw l2 p2).2.2 <;>
      cases hB : intersectB (loc_position_xy hw l1 p1).2.1 (loc_position_xy hw l2 p2).2.2 <;>
      cases hC : intersectB (loc_position_xy hw l2 p2).2.1 (loc_position_xy hw l1 p1).2.2 <;>
      simp [hf1, hf2, hA, hB, hC]
  refine ⟨?_, ?_, hform loc1 loc2 xy1 xy2⟩
  · rw [hform loc1 loc2 xy1 xy2, hform loc2 loc1 xy2 xy1,
      intersectB_comm (loc_position_xy hw loc2 xy2).2.2 (loc_position_xy hw loc1 xy1).2.2]
    cases (loc_position_xy hw loc1 xy1).1 <;> cases (loc_position_xy hw loc2 xy2).1 <;>
      cases intersectB (loc_position_xy hw loc1 xy1).2.2 (loc_position_xy hw loc2 xy2).2.2 <;>
      cases intersectB (loc_position_xy hw loc1 xy1).2.1 (loc_position_xy hw loc2 xy2).2.2 <;>
      cases intersectB (loc_position_xy hw loc2 xy2).2.1 (loc_position_xy hw loc1 xy1).2.2 <;>
      rfl
  · intro h
    rw [hform loc1 loc2 xy1 xy2]
    rcases h with h | h <;> simp [h]

/-! ## C9: xy2radec output ranges -/

/-- The value of `atan2` lands in `(-π, π]`. -/
lemma atan2_mem (y x : ℝ) : -Real.pi < atan2 y x ∧ atan2 y x ≤ Real.pi :=
  ⟨Complex.neg_pi_lt_arg _, Complex.arg_le_pi _⟩

/-- On `[0, y)` the `fmod` is the identity. -/
lemma fmodReal_eq_self (x y : ℝ) (hx : 0 ≤ x) (hxy : x < y) (hy : 0 < y) :
    fmodReal x y = x := by
  unfold fmodReal ctrunc
  have h1 : 0 ≤ x / y := div_nonneg hx hy.le
  have h2 : x / y < 1 := (div_lt_one hy).mpr hxy
  rw [if_pos h1, Int.floor_eq_zero_iff.mpr ⟨h1, h2⟩]
  simp

/-- The right ascension assembled at the end of `xy2radec` — an `atan2`
value wrapped into `[0, 2π)`, converted to degrees, reduced mod 360 —
lands in `[0, 360)`. -/
lemma ra_out_range (raw : ℝ) (h1 : -Real.pi < raw) (h2 : raw ≤ Real.pi) :
    0 ≤ fmodReal ((if raw < 0 then 2 * Real.pi + raw else raw) * (180 / Real.pi)) 360 ∧
    fmodReal ((if raw < 0 then 2 * Real.pi + raw else raw) * (180 / Real.pi)) 360 < 360 := by
  have hpi := Real.pi_pos
  have hc : (0 : ℝ) < 180 / Real.pi := by positivity
  have hB0 : 0 ≤ (if raw < 0 then 2 * Real.pi + raw else raw) := by
    by_cases h : raw < 0 <;> simp only [h, if_true, if_false] <;> linarith
  have hB1 : (if raw < 0 then 2 * Real.pi + raw else raw) < 2 * Real.pi := by
    by_cases h : raw < 0 <;> simp only [h, if_true, if_false] <;> linarith
  have h360 : (2 * Real.pi) * (180 / Real.pi) = 360 := by
    field_simp
    ring
  have hdeg0 : 0 ≤ (if raw < 0 then 2 * Real.pi + raw else raw) * (180 / Real.pi) :=
    mul_nonneg hB0 hc.le
  have hdeg1 : (if raw < 0 then 2 * Real.pi + raw else raw) * (180 / Real.pi) < 360 := by
    calc (if raw < 0 then 2 * Real.pi + raw else raw) * (180 / Real.pi)
        < (2 * Real.pi) * (180 / Real.pi) := by
          exact mul_lt_mul_of_pos_right hB1 hc
      _ = 360 := h360
  rw [fmodReal_eq_self _ _ hdeg0 hdeg1 (by norm_num)]
  exact ⟨hdeg0, hdeg1⟩

/-- The declination assembled at the end of `xy2radec` — `π/2` minus an
`acos`, converted to degrees — lands in `[-90, 90]`. -/
lemma dec_out_range (z : ℝ) :
    -90 ≤ (Real.pi / 2 - Real.arccos z) * (180 / Real.pi) ∧
    (Real.pi / 2 - Real.arccos z) * (180 / Real.pi) ≤ 90 := by
  have hpi := Real.pi_pos
  have hc : (0 : ℝ) < 180 / Real.pi := by positivity
  have ha0 : 0 ≤ Real.arccos z := Real.arccos_nonneg z
  have ha1 : Real.arccos z ≤ Real.pi := Real.arccos_le_pi z
  have h90 : (Real.pi / 2) * (180 / Real.pi) = 90 := by
    field_simp
    ring
  constructor
  · have : -(Real.pi / 2) ≤ Real.pi / 2 - Real.arccos z := by linarith
    calc (-90 : ℝ) = -(Real.pi / 2) * (180 / Real.pi) := by rw [neg_mul, h90]
      _ ≤ (Real.pi / 2 - Real.arccos z) * (180 / Real.pi) :=
          mul_le_mul_of_nonneg_right this hc.le
  · have : Real.pi / 2 - Real.arccos z ≤ Real.pi / 2 := by linarith
    calc (Real.pi / 2 - Real.arccos z) * (180 / Real.pi)
        ≤ (Real.pi / 2) * (180 / Real.pi) := mul_le_mul_of_nonneg_right this hc.le
      _ = 90 := h90

/-- C9: for every tile pointing and every focal-plane input,
`xy2radec` returns a right ascension in `[0, 360)` degrees and a
declination in `[-90, 90]` degrees (exact real arithmetic), whatever the
fuel given to the radial inversion. -/
theorem c9_xy2radec_range (fuel : ℕ) (tilera tiledec tiletheta x_mm y_mm : ℝ) :
    0 ≤ (xy2radec fuel tilera tiledec tiletheta x_mm y_mm).1 ∧
    (xy2radec fuel tilera tiledec tiletheta x_mm y_mm).1 < 360 ∧
    -90 ≤ (xy2radec fuel tilera tiledec tiletheta x_mm y_mm).2 ∧
    (xy2radec fuel tilera tiledec tiletheta x_mm y_mm).2 ≤ 90 := by
  unfold xy2radec
  simp only []
  refine ⟨?_, ?_, ?_, ?_⟩
  · exact (ra_out_range _ (atan2_mem _ _).1 (atan2_mem _ _).2).1
  · exact (ra_out_range _ (atan2_mem _ _).1 (atan2_mem _ _).2).2
  · exact (dec_out_range _).1
  · exact (dec_out_range _).2

/-! ## C7: the vectorized kernels are elementwise and order-independent -/

/-- Replaying writes with pairwise distinct indices is independent of
their order: any interleaving the parallel loop's threads produce yields
the same output buffer. -/
lemma applyWrites_perm {α : Type} {ws ws' : List (ℕ × α)} (hp : ws.Perm ws') :
    (ws.map Prod.fst).Nodup → ∀ res : List α, applyWrites ws res = applyWrites ws' res := by
  induction hp with
  | nil =>
      intro _ res
      rfl
  | cons x _ ih =>
      intro hnd res
      simp only [applyWrites, List.foldl_cons] at ih ⊢
      exact ih (List.nodup_cons.mp (by simpa using hnd)).2 _
  | swap x y l =>
      intro hnd res
      simp only [applyWrites, List.foldl_cons]
      have hxy : y.1 ≠ x.1 := by
        simp only [List.map_cons, List.nodup_cons, List.mem_cons] at hnd
        exact fun h => hnd.1 (Or.inl h)
      rw [List.set_comm _ _ res hxy]
  | trans p1 _ ih1 ih2 =>
      intro hnd res
      rw [ih1 hnd res, ih2 ((p1.map Prod.fst).nodup_iff.mp hnd) res]

/-- The canonical write list of the parallel loop touches each index once. -/
lemma ompWrites_nodup {α : Type} (n : ℕ) (g : ℕ → α) :
    ((ompWrites n g).map Prod.fst).Nodup := by
  unfold ompWrites
  rw [List.map_map]
  have : (Prod.fst ∘ fun t => (t, g t)) = id := rfl
  rw [this, List.map_id]
  exact List.nodup_range n

/-- One extra write appended to a run. -/
lemma applyWrites_append_single {α : Type} (ws : List (ℕ × α)) (w : ℕ × α) (res : List α) :
    applyWrites (ws ++ [w]) res = (applyWrites ws res).set w.1 w.2 := by
  unfold applyWrites
  rw [List.foldl_append]
  rfl

/-- Replaying the canonical writes of the parallel loop fills slot `t`
with `g t` and preserves the buffer length. -/
lemma applyWrites_omp {α : Type} (n : ℕ) (g : ℕ → α) (res : List α) (d : α) :
    (applyWrites (ompWrites n g) res).length = res.length ∧
    ∀ t, t < n → t < res.length → (applyWrites (ompWrites n g) res).getD t d = g t := by
  induction n with
  | zero =>
      exact ⟨rfl, fun t ht _ => absurd ht (Nat.not_lt_zero t)⟩
  | succ n ih =>
      have hsplit : ompWrites (n + 1) g = ompWrites n g ++ [(n, g n)] := by
        unfold ompWrites
        rw [List.range_succ, List.map_append]
        rfl
      rw [hsplit, applyWrites_append_single]
      refine ⟨by rw [List.length_set]; exact ih.1, fun t ht htr => ?_⟩
      rcases Nat.lt_succ_iff_lt_or_eq.mp ht with ht' | rfl
      · have hlen : t < (applyWrites (ompWrites n g) res).length := ih.1 ▸ htr
        rw [List.getD_eq_getElem _ _ (by rw [List.length_set]; exact ih.1 ▸ htr),
            List.getElem_set_ne (by omega)]
        have h2 := ih.2 t ht' htr
        rw [List.getD_eq_getElem _ _ hlen] at h2
        exact h2
      · rw [List.getD_eq_getElem _ _ (by rw [List.length_set]; exact ih.1 ▸ htr),
            List.getElem_set_self]

/-- C7: `radec2xy_multi` returns a vector of the input length whose
element `t` is `radec2xy` of input element `t`, and `xy2radec_multi`
likewise is the elementwise `xy2radec`; the result does not depend on the
`threads` argument, and replaying the loop's writes in any order a
scheduler could produce (any permutation of the canonical write list)
yields the same vector. -/
theorem c7_multi_elementwise (fuel : ℕ) (tilera tiledec tiletheta : ℝ)
    (ra dec x_mm y_mm : List ℝ) (threads threads' : ℤ) :
    ((radec2xy_multi tilera tiledec tiletheta ra dec threads).length = ra.length ∧
     (∀ t, t < ra.length →
       (radec2xy_multi tilera tiledec tiletheta ra dec threads).getD t (0, 0) =
         radec2xy tilera tiledec tiletheta (ra.getD t 0) (dec.getD t 0)) ∧
     radec2xy_multi tilera tiledec tiletheta ra dec threads =
       radec2xy_multi tilera tiledec tiletheta ra dec threads' ∧
     (∀ ws, ws.Perm (ompWrites ra.length
         (fun t => radec2xy tilera tiledec tiletheta (ra.getD t 0) (dec.getD t 0))) →
       applyWrites ws (List.replicate ra.length ((0 : ℝ), (0 : ℝ))) =
         radec2xy_multi tilera tiledec tiletheta ra dec threads)) ∧
    ((xy2radec_multi fuel tilera tiledec tiletheta x_mm y_mm threads).length = x_mm.length ∧
     (∀ i, i < x_mm.length →
       (xy2radec_multi fuel tilera tiledec tiletheta x_mm y_mm threads).getD i (0, 0) =
         xy2radec fuel tilera tiledec tiletheta (x_mm.getD i 0) (y_mm.getD i 0)) ∧
     xy2radec_multi fuel tilera tiledec tiletheta x_mm y_mm threads =
       xy2radec_multi fuel tilera tiledec tiletheta x_mm y_mm threads' ∧
     (∀ ws, ws.Perm (ompWrites x_mm.length
         (fun i => xy2radec fuel tilera tiledec tiletheta (x_mm.getD i 0) (y_mm.getD i 0))) →
       applyWrites ws (List.replicate x_mm.length ((0 : ℝ), (0 : ℝ))) =
         xy2radec_multi fuel tilera tiledec tiletheta x_mm y_mm threads)) := by
  constructor
  · refine ⟨?_, ?_, rfl, ?_⟩
    · exact (applyWrites_omp _ _ _ ((0 : ℝ), (0 : ℝ))).1.trans (List.length_replicate _ _)
    · intro t ht
      exact (applyWrites_omp _ _ _ _).2 t ht (by simpa using ht)
    · intro ws hp
      exact applyWrites_perm hp
        ((hp.map Prod.fst).nodup_iff.mpr (ompWrites_nodup _ _)) _
  · refine ⟨?_, ?_, rfl, ?_⟩
    · exact (applyWrites_omp _ _ _ ((0 : ℝ), (0 : ℝ))).1.trans (List.length_replicate _ _)
    · intro i hi
      exact (applyWrites_omp _ _ _ _).2 i hi (by simpa using hi)
    · intro ws hp
      exact applyWrites_perm hp
        ((hp.map Prod.fst).nodup_iff.mpr (ompWrites_nodup _ _)) _

/-- Witness for C7 on the one-point inputs `ra = dec = x = y = [0]`, with
thread counts 1 and 7 and the canonical write order. -/
theorem c7_multi_elementwise_witness :
    (radec2xy_multi 0 0 0 [0] [0] 1).getD 0 (0, 0) = radec2xy 0 0 0 0 0 ∧
    radec2xy_multi 0 0 0 [0] [0] 1 = radec2xy_multi 0 0 0 [0] [0] 7 ∧
    applyWrites (ompWrites ([(0 : ℝ)]).length
        (fun t => radec2xy 0 0 0 (([(0 : ℝ)]).getD t 0) (([(0 : ℝ)]).getD t 0)))
        (List.replicate ([(0 : ℝ)]).length ((0 : ℝ), (0 : ℝ))) =
      radec2xy_multi 0 0 0 [0] [0] 1 ∧
    (xy2radec_multi 0 0 0 0 [0] [0] 1).getD 0 (0, 0) = xy2radec 0 0 0 0 0 0 := by
  obtain ⟨⟨-, h2, h3, h4⟩, ⟨-, g2, -, -⟩⟩ :=
    c7_multi_elementwise 0 0 0 0 [0] [0] [0] [0] 1 7
  refine ⟨?_, h3, h4 _ (List.Perm.refl _), ?_⟩
  · simpa using h2 0 (by norm_num)
  · simpa using g2 0 (by norm_num)

/-! ## C5: the neighbor graph -/

/-- Euclidean distance is symmetric. -/
lemma dist_comm (p q : Point) : dist p q = dist q p := by
  unfold dist
  congr 1
  ring

/-- Membership after one `push_back` into the adjacency map. -/
lemma mem_addNeighbor (g : ℤ → List ℤ) (k v a b : ℤ) :
    b ∈ addNeighbor g k v a ↔ (a = k ∧ b = v) ∨ b ∈ g a := by
  unfold addNeighbor
  by_cases h : a = k
  · subst h
    simp [List.mem_append, or_comm]
  · simp [h]

/-- The index pairs visited by the neighbor scan are exactly the ordered
pairs below the list length. -/
lemma mem_indexPairs (n x y : ℕ) : (x, y) ∈ indexPairs n ↔ x < y ∧ y < n := by
  unfold indexPairs
  simp only [List.mem_flatMap, List.mem_map, List.mem_filter, List.mem_range,
    decide_eq_true_eq, Prod.mk.injEq]
  constructor
  · rintro ⟨a, ha, b, ⟨hb, hab⟩, rfl, rfl⟩
    exact ⟨hab, hb⟩
  · rintro ⟨hxy, hyn⟩
    exact ⟨x, lt_trans hxy hyn, y, ⟨hyn, hxy⟩, rfl, rfl⟩

/-- Membership in the adjacency map built by a run of the neighbor scan:
an edge comes either from the initial map or from some visited pair whose
centers are close enough, in either orientation. -/
lemma neighborsFold_mem (ids : List ℤ) (pos : ℤ → Point) (ps : List (ℕ × ℕ))
    (acc : ℤ → List ℤ) (a b : ℤ) :
    b ∈ (ps.foldl (neighborStep ids pos) acc) a ↔
      b ∈ acc a ∨ ∃ p ∈ ps,
        dist (pos (ids.getD p.1 0)) (pos (ids.getD p.2 0)) ≤ neighbor_radius_mm ∧
        ((ids.getD p.1 0 = a ∧ ids.getD p.2 0 = b) ∨
         (ids.getD p.2 0 = a ∧ ids.getD p.1 0 = b)) := by
  induction ps generalizing acc with
  | nil => simp
  | cons p ps ih =>
      rw [List.foldl_cons, ih]
      rw [List.exists_mem_cons_iff]
      unfold neighborStep
      by_cases hc : dist (pos (ids.getD p.1 0)) (pos (ids.getD p.2 0)) ≤ neighbor_radius_mm
      · rw [if_pos hc]
        simp only [mem_addNeighbor]
        constructor
        · rintro ((⟨h1, h2⟩ | ⟨h1, h2⟩ | hmem) | hex)
          · exact Or.inr (Or.inl ⟨hc, Or.inr ⟨h1.symm, h2.symm⟩⟩)
          · exact Or.inr (Or.inl ⟨hc, Or.inl ⟨h1.symm, h2.symm⟩⟩)
          · exact Or.inl hmem
          · exact Or.inr (Or.inr hex)
        · rintro (hmem | ⟨-, (⟨h1, h2⟩ | ⟨h1, h2⟩)⟩ | hex)
          · exact Or.inl (Or.inr (Or.inr hmem))
          · exact Or.inl (Or.inr (Or.inl ⟨h1.symm, h2.symm⟩))
          · exact Or.inl (Or.inl ⟨h1.symm, h2.symm⟩)
          · exact Or.inr hex
      · rw [if_neg hc]
        constructor
        · rintro (hmem | hex)
          · exact Or.inl hmem
          · exact Or.inr (Or.inr hex)
        · rintro (hmem | ⟨hcond, -⟩ | hex)
          · exact Or.inl hmem
          · exact absurd hcond hc
          · exact Or.inr hex

/-- Over a duplicate-free id list, the neighbor map contains exactly the
close unordered pairs of distinct ids. -/
lemma mem_neighborsOf (ids : List ℤ) (pos : ℤ → Point) (hnd : ids.Nodup) (a b : ℤ) :
    b ∈ neighborsOf ids pos a ↔
      a ∈ ids ∧ b ∈ ids ∧ a ≠ b ∧ dist (pos a) (pos b) ≤ neighbor_radius_mm := by
  rw [neighborsOf, neighborsFold_mem]
  simp only [List.not_mem_nil, false_or]
  constructor
  · rintro ⟨p, hp, hd, hm⟩
    rw [mem_indexPairs] at hp
    obtain ⟨hxy, hyn⟩ := hp
    have hxn : p.1 < ids.length := lt_trans hxy hyn
    have hmem1 : ids.getD p.1 0 ∈ ids := by
      rw [List.getD_eq_getElem _ _ hxn]
      exact List.getElem_mem _
    have hmem2 : ids.getD p.2 0 ∈ ids := by
      rw [List.getD_eq_getElem _ _ hyn]
      exact List.getElem_mem _
    have hne : ids.getD p.1 0 ≠ ids.getD p.2 0 := by
      intro h
      have h2 : ids.get ⟨p.1, hxn⟩ = ids.get ⟨p.2, hyn⟩ := by
        rw [List.getD_eq_getElem _ _ hxn, List.getD_eq_getElem _ _ hyn] at h
        simpa [List.get_eq_getElem] using h
      have h3 : p.1 = p.2 := by simpa using (List.Nodup.get_inj_iff hnd).mp h2
      omega
    rcases hm with ⟨h1, h2⟩ | ⟨h1, h2⟩
    · refine ⟨h1 ▸ hmem1, h2 ▸ hmem2, ?_, ?_⟩
      · rw [← h1, ← h2]
        exact hne
      · rw [← h1, ← h2]
        exact hd
    · refine ⟨h1 ▸ hmem2, h2 ▸ hmem1, ?_, ?_⟩
      · rw [← h1, ← h2]
        exact hne.symm
      · rw [← h1, ← h2, dist_comm]
        exact hd
  · rintro ⟨ha, hb, hab, hd⟩
    rcases List.mem_iff_get.mp ha with ⟨⟨ia, hia⟩, hga⟩
    rcases List.mem_iff_get.mp hb with ⟨⟨ib, hib⟩, hgb⟩
    have hgda : ids.getD ia 0 = a := by
      rw [List.getD_eq_getElem _ _ hia]
      exact hga
    have hgdb : ids.getD ib 0 = b := by
      rw [List.getD_eq_getElem _ _ hib]
      exact hgb
    have hne : ia ≠ ib := by
      intro h
      apply hab
      rw [← hgda, ← hgdb, h]
    rcases Nat.lt_or_ge ia ib with h | h
    · refine ⟨(ia, ib), (mem_indexPairs _ _ _).mpr ⟨h, hib⟩, ?_, Or.inl ⟨?_, ?_⟩⟩
      · show dist (pos (ids.getD ia 0)) (pos (ids.getD ib 0)) ≤ neighbor_radius_mm
        rw [hgda, hgdb]
        exact hd
      · exact hgda
      · exact hgdb
    · have h' : ib < ia := lt_of_le_of_ne h (Ne.symm hne)
      refine ⟨(ib, ia), (mem_indexPairs _ _ _).mpr ⟨h', hia⟩, ?_, Or.inr ⟨?_, ?_⟩⟩
      · show dist (pos (ids.getD ib 0)) (pos (ids.getD ia 0)) ≤ neighbor_radius_mm
        rw [hgda, hgdb, dist_comm]
        exact hd
      · exact hgda
      · exact hgdb

/-- C5: in a Hardware constructed from distinct location ids, the
neighbor relation is symmetric and irreflexive, and an edge exists
exactly when the two centers lie within 14.05 mm of each other. -/
theorem c5_neighbors (location petal device slitblock blockfiber fiber : List ℤ)
    (device_type : List String) (x_mm y_mm : List ℝ) (status : List ℤ)
    (theta_offset theta_min theta_max theta_arm phi_offset phi_min phi_max phi_arm : List ℝ)
    (excl_theta excl_phi excl_gfa excl_petal : List shape)
    (hw : Hardware)
    (hhw : hw = mkHardware location petal device slitblock blockfiber fiber device_type
      x_mm y_mm status theta_offset theta_min theta_max theta_arm phi_offset phi_min
      phi_max phi_arm excl_theta excl_phi excl_gfa excl_petal)
    (hnd : location.Nodup) :
    (∀ a b, b ∈ hw.neighbors a ↔ a ∈ hw.neighbors b) ∧
    (∀ a, a ∉ hw.neighbors a) ∧
    (∀ a b, b ∈ hw.neighbors a ↔
      (a ∈ hw.locations ∧ b ∈ hw.locations ∧ a ≠ b ∧
        dist (hw.loc_pos_xy_mm a) (hw.loc_pos_xy_mm b) ≤
          neighbor_radius_mm)) := by
  subst hhw
  have hsnd : (location.insertionSort (· ≤ ·)).Nodup :=
    (List.perm_insertionSort (· ≤ ·) location).nodup_iff.mpr hnd
  have hneigh : (mkHardware location petal device slitblock blockfiber fiber device_type
      x_mm y_mm status theta_offset theta_min theta_max theta_arm phi_offset phi_min
      phi_max phi_arm excl_theta excl_phi excl_gfa excl_petal).neighbors =
      neighborsOf (location.insertionSort (· ≤ ·))
        (buildMap location (x_mm.zip y_mm) ((0 : ℝ), (0 : ℝ))) := rfl
  have hlocs : (mkHardware location petal device slitblock blockfiber fiber device_type
      x_mm y_mm status theta_offset theta_min theta_max theta_arm phi_offset phi_min
      phi_max phi_arm excl_theta excl_phi excl_gfa excl_petal).locations =
      location.insertionSort (· ≤ ·) := rfl
  have hpos : (mkHardware location petal device slitblock blockfiber fiber device_type
      x_mm y_mm status theta_offset theta_min theta_max theta_arm phi_offset phi_min
      phi_max phi_arm excl_theta excl_phi excl_gfa excl_petal).loc_pos_xy_mm =
      buildMap location (x_mm.zip y_mm) ((0 : ℝ), (0 : ℝ)) := rfl
  refine ⟨fun a b => ?_, fun a => ?_, fun a b => ?_⟩
  · rw [hneigh, mem_neighborsOf _ _ hsnd, mem_neighborsOf _ _ hsnd, dist_comm]
    tauto
  · rw [hneigh, mem_neighborsOf _ _ hsnd]
    rintro ⟨-, -, hne, -⟩
    exact hne rfl
  · rw [hneigh, hlocs, hpos, mem_neighborsOf _ _ hsnd]

/-- Positioner center of location 5 of the two-location hardware. -/
lemma twoLoc_pos5 : twoLocHW.loc_pos_xy_mm 5 = ((0 : ℝ), (0 : ℝ)) := by
  simp only [twoLocHW, mkHardware]
  norm_num [buildMap, foldUpd, updMap, List.zip_cons_cons]

/-- Positioner center of location 9 of the two-location hardware. -/
lemma twoLoc_pos9 : twoLocHW.loc_pos_xy_mm 9 = ((1 : ℝ), (0 : ℝ)) := by
  simp only [twoLocHW, mkHardware]
  norm_num [buildMap, foldUpd, updMap, List.zip_cons_cons]

/-- θ-arm length of location 5 of the two-location hardware. -/
lemma twoLoc_tarm5 : twoLocHW.loc_theta_arm 5 = 3 := by
  simp only [twoLocHW, mkHardware]
  norm_num [buildMap, foldUpd, updMap, List.zip_cons_cons]

/-- φ-arm length of location 5 of the two-location hardware. -/
lemma twoLoc_parm5 : twoLocHW.loc_phi_arm 5 = 3 := by
  simp only [twoLocHW, mkHardware]
  norm_num [buildMap, foldUpd, updMap, List.zip_cons_cons]

/-- Witness for C5 on the two-location hardware: the 1 mm edge 5–9 is
symmetric, 5 is not its own neighbor, and the edge exists. -/
theorem c5_neighbors_witness :
    (9 ∈ twoLocHW.neighbors 5 ↔
      5 ∈ twoLocHW.neighbors 9) ∧
    5 ∉ twoLocHW.neighbors 5 ∧
    9 ∈ twoLocHW.neighbors 5 := by
  obtain ⟨h1, h2, h3⟩ := c5_neighbors [5, 9] [0, 0] [0, 0] [0, 0] [0, 0] [0, 0]
    ["POS", "POS"] [0, 1] [0, 0] [0, 0] [0, 0] [-180, -180] [180, 180] [3, 3]
    [0, 0] [-20, -20] [200, 200] [3, 3]
    [default, default] [default, default] [default, default] [default, default]
    twoLocHW rfl (by decide)
  refine ⟨h1 5 9, h2 5, ?_⟩
  rw [h3 5 9]
  refine ⟨by decide, by decide, by decide, ?_⟩
  rw [twoLoc_pos5, twoLoc_pos9]
  unfold dist neighbor_radius_mm
  rw [show ((0 : ℝ) - 1) ^ 2 + ((0 : ℝ) - 0) ^ 2 = 1 by norm_num, Real.sqrt_one]
  norm_num

/-! ## The unreachable branch of the inverse kinematics -/

/-- When the squared offset is farther than float-epsilon from both arm
limits and beyond the full extension, `xy_to_thetaphi` reports
unreachable and leaves the initial θ = 0, φ = π outputs. -/
lemma xy_to_thetaphi_far (center position : Point) (ta pa t0 p0 t1 p1 t2 p2 : ℝ)
    (h1 : ¬ |sqv (subp position center) - sqs (ta + pa)| ≤ flt_epsilon)
    (h2 : ¬ |sqs (ta - pa) - sqv (subp position center)| ≤ flt_epsilon)
    (h3 : sqs (ta + pa) < sqv (subp position center)) :
    xy_to_thetaphi center position ta pa t0 p0 t1 p1 t2 p2 = (true, 0, Real.pi) := by
  unfold xy_to_thetaphi
  rw [if_neg h1, if_neg h2, if_pos h3]

/-- Witness for C6: on the two-location hardware, the point (100, 0) is
out of reach of location 5, so `collide_xy` reports a collision. -/
theorem c6_collide_xy_witness :
    collide_xy twoLocHW 5 (100, 0) 9 (0, 0) = true := by
  obtain ⟨-, h2, -⟩ := c6_collide_xy twoLocHW 5 9 (100, 0) (0, 0)
  apply h2
  left
  have hr : xy_to_thetaphi (twoLocHW.loc_pos_xy_mm 5) (100, 0)
      (twoLocHW.loc_theta_arm 5) (twoLocHW.loc_phi_arm 5)
      (twoLocHW.loc_theta_offset 5) (twoLocHW.loc_phi_offset 5)
      (twoLocHW.loc_theta_min 5) (twoLocHW.loc_phi_min 5)
      (twoLocHW.loc_theta_max 5) (twoLocHW.loc_phi_max 5) =
      (true, 0, Real.pi) := by
    rw [twoLoc_pos5, twoLoc_tarm5, twoLoc_parm5]
    refine xy_to_thetaphi_far _ _ _ _ _ _ _ _ _ _ ?_ ?_ ?_
    · norm_num [sqv, sqs, subp, flt_epsilon]
    · norm_num [sqv, sqs, subp, flt_epsilon]
    · norm_num [sqv, sqs, subp]
  unfold loc_position_xy move_positioner_xy
  rw [hr]
  rfl

/-! ## C4: the reachable branch of the inverse kinematics -/

/-- C4: with the squared offset strictly inside the annulus
`(a-b)² < s < (a+b)²` and beyond float-epsilon of both limits,
`xy_to_thetaphi` computes `φ = π − acos((a²+b²−s)/(2ab))` and
`θ = atan2(offset.y, offset.x) − acos((a²+s−b²)/(2a·|offset|))`, wraps
each by ±2π into `[zero+min, zero+max]`, and reports unreachable exactly
when a wrapped angle is still out of range. -/
theorem c4_xy_to_thetaphi (center position : Point) (ta pa t0 p0 t1 p1 t2 p2 : ℝ)
    (h1 : ¬ |sqv (subp position center) - sqs (ta + pa)| ≤ flt_epsilon)
    (h2 : ¬ |sqs (ta - pa) - sqv (subp position center)| ≤ flt_epsilon)
    (h3 : sqs (ta - pa) < sqv (subp position center))
    (h4 : sqv (subp position center) < sqs (ta + pa)) :
    xy_to_thetaphi center position ta pa t0 p0 t1 p1 t2 p2 =
      ((check_angle_range (Real.pi - Real.arccos ((ta * ta + pa * pa -
            sqv (subp position center)) / (2 * ta * pa))) p0 p1 p2).2 ||
       (check_angle_range (atan2 (subp position center).2 (subp position center).1 -
            Real.arccos ((ta * ta + sqv (subp position center) - pa * pa) /
              (2 * ta * Real.sqrt (sqv (subp position center))))) t0 t1 t2).2,
       (check_angle_range (atan2 (subp position center).2 (subp position center).1 -
            Real.arccos ((ta * ta + sqv (subp position center) - pa * pa) /
              (2 * ta * Real.sqrt (sqv (subp position center))))) t0 t1 t2).1,
       (check_angle_range (Real.pi - Real.arccos ((ta * ta + pa * pa -
            sqv (subp position center)) / (2 * ta * pa))) p0 p1 p2).1) ∧
    ((xy_to_thetaphi center position ta pa t0 p0 t1 p1 t2 p2).1 = true ↔
      ((check_angle_range (Real.pi - Real.arccos ((ta * ta + pa * pa -
            sqv (subp position center)) / (2 * ta * pa))) p0 p1 p2).2 = true ∨
       (check_angle_range (atan2 (subp position center).2 (subp position center).1 -
            Real.arccos ((ta * ta + sqv (subp position center) - pa * pa) /
              (2 * ta * Real.sqrt (sqv (subp position center))))) t0 t1 t2).2 = true)) := by
  have hmain : xy_to_thetaphi center position ta pa t0 p0 t1 p1 t2 p2 =
      ((check_angle_range (Real.pi - Real.arccos ((ta * ta + pa * pa -
            sqv (subp position center)) / (2 * ta * pa))) p0 p1 p2).2 ||
       (check_angle_range (atan2 (subp position center).2 (subp position center).1 -
            Real.arccos ((ta * ta + sqv (subp position center) - pa * pa) /
              (2 * ta * Real.sqrt (sqv (subp position center))))) t0 t1 t2).2,
       (check_angle_range (atan2 (subp position center).2 (subp position center).1 -
            Real.arccos ((ta * ta + sqv (subp position center) - pa * pa) /
              (2 * ta * Real.sqrt (sqv (subp position center))))) t0 t1 t2).1,
       (check_angle_range (Real.pi - Real.arccos ((ta * ta + pa * pa -
            sqv (subp position center)) / (2 * ta * pa))) p0 p1 p2).1) := by
    unfold xy_to_thetaphi
    rw [if_neg h1, if_neg h2, if_neg (not_lt.mpr h4.le), if_neg (not_lt.mpr h3.le)]
  refine ⟨hmain, ?_⟩
  rw [hmain]
  simp [Bool.or_eq_true]

/-- Witness for C4 at arms 3/3, center (0,0), position (4,0): the squared
offset 16 is strictly inside (0, 36) and far from both limits. -/
theorem c4_xy_to_thetaphi_witness :
    xy_to_thetaphi ((0 : ℝ), (0 : ℝ)) ((4 : ℝ), (0 : ℝ)) 3 3 0 0 (-10) (-10) 10 10 =
      ((check_angle_range (Real.pi - Real.arccos ((3 * 3 + 3 * 3 -
            sqv (subp ((4 : ℝ), (0 : ℝ)) ((0 : ℝ), (0 : ℝ)))) / (2 * 3 * 3))) 0 (-10) 10).2 ||
       (check_angle_range (atan2 (subp ((4 : ℝ), (0 : ℝ)) ((0 : ℝ), (0 : ℝ))).2
            (subp ((4 : ℝ), (0 : ℝ)) ((0 : ℝ), (0 : ℝ))).1 -
            Real.arccos ((3 * 3 + sqv (subp ((4 : ℝ), (0 : ℝ)) ((0 : ℝ), (0 : ℝ))) - 3 * 3) /
              (2 * 3 * Real.sqrt (sqv (subp ((4 : ℝ), (0 : ℝ)) ((0 : ℝ), (0 : ℝ))))))) 0 (-10) 10).2,
       (check_angle_range (atan2 (subp ((4 : ℝ), (0 : ℝ)) ((0 : ℝ), (0 : ℝ))).2
            (subp ((4 : ℝ), (0 : ℝ)) ((0 : ℝ), (0 : ℝ))).1 -
            Real.arccos ((3 * 3 + sqv (subp ((4 : ℝ), (0 : ℝ)) ((0 : ℝ), (0 : ℝ))) - 3 * 3) /
              (2 * 3 * Real.sqrt (sqv (subp ((4 : ℝ), (0 : ℝ)) ((0 : ℝ), (0 : ℝ))))))) 0 (-10) 10).1,
       (check_angle_range (Real.pi - Real.arccos ((3 * 3 + 3 * 3 -
            sqv (subp ((4 : ℝ), (0 : ℝ)) ((0 : ℝ), (0 : ℝ)))) / (2 * 3 * 3))) 0 (-10) 10).1) :=
  (c4_xy_to_thetaphi ((0 : ℝ), (0 : ℝ)) ((4 : ℝ), (0 : ℝ)) 3 3 0 0 (-10) (-10) 10 10
    (by norm_num [sqv, sqs, subp, flt_epsilon])
    (by norm_num [sqv, sqs, subp, flt_epsilon])
    (by norm_num [sqv, sqs, subp])
    (by norm_num [sqv, sqs, subp])).1

/-! ## C1: the batch collision check -/

/-- The per-pair hit test is symmetric. -/
lemma pairHit_comm (p q : Bool × shape × shape) : pairHit p q = pairHit q p := by
  unfold pairHit
  rw [intersectB_comm p.2.2 q.2.2]
  cases h1 : p.1 <;> cases h2 : q.1 <;> cases h3 : intersectB q.2.2 p.2.2 <;>
    cases h4 : intersectB p.2.1 q.2.2 <;> cases h5 : intersectB q.2.1 p.2.2 <;>
    simp [h1, h2, h3, h4, h5]

/-- A fold over a flattened list is the nested fold. -/
lemma foldl_flatMap {α β γ : Type} (g : α → List β) (step : γ → β → γ)
    (l : List α) (init : γ) :
    (l.flatMap g).foldl step init = l.foldl (fun acc a => (g a).foldl step acc) init := by
  induction l generalizing init with
  | nil => rfl
  | cons a l ih =>
      rw [List.flatMap_cons, List.foldl_append, List.foldl_cons, ih]

/-- The nested `checklookup` loops are the flat fold over `genPairs`. -/
lemma buildCheckLookup_eq (nbrs : ℤ → List ℤ) (locs : List ℤ) :
    buildCheckLookup nbrs locs = (genPairs nbrs locs).foldl
      (fun acc pr => addPairStep acc pr.1 pr.2) ((fun _ => []), []) := by
  unfold buildCheckLookup genPairs
  rw [foldl_flatMap]
  simp only [List.foldl_map]

/-- Membership in the lookup map after one `addPairStep`. -/
lemma mem_addPairStep (st : (ℤ → List ℤ) × List ℤ) (low high l h : ℤ) :
    h ∈ (addPairStep st low high).1 l ↔ h ∈ st.1 l ∨ (l = low ∧ h = high) := by
  unfold addPairStep
  by_cases hc : high ∈ st.1 low
  · rw [if_pos hc]
    constructor
    · exact Or.inl
    · rintro (hm | ⟨rfl, rfl⟩)
      · exact hm
      · exact hc
  · rw [if_neg hc]
    by_cases hl : l = low
    · subst hl
      simp [List.mem_append]
    · simp [hl]

/-- Membership in the lookup map after a run of `addPairStep`s. -/
lemma checkFold_mem (ps : List (ℤ × ℤ)) (st : (ℤ → List ℤ) × List ℤ) (l h : ℤ) :
    h ∈ ((ps.foldl (fun acc pr => addPairStep acc pr.1 pr.2) st).1 l) ↔
      h ∈ st.1 l ∨ (l, h) ∈ ps := by
  induction ps generalizing st with
  | nil => simp
  | cons p ps ih =>
      rw [List.foldl_cons, ih, mem_addPairStep, List.mem_cons]
      constructor
      · rintro ((hm | ⟨rfl, rfl⟩) | hp)
        · exact Or.inl hm
        · exact Or.inr (Or.inl rfl)
        · exact Or.inr (Or.inr hp)
      · rintro (hm | (heq | hp))
        · exact Or.inl (Or.inl hm)
        · rcases Prod.mk.injEq .. ▸ heq with ⟨rfl, rfl⟩
          exact Or.inl (Or.inr ⟨rfl, rfl⟩)
        · exact Or.inr hp

/-- The per-key lists of the lookup map stay duplicate-free. -/
lemma checkFold_nodup (ps : List (ℤ × ℤ)) (st : (ℤ → List ℤ) × List ℤ)
    (hnd : ∀ l, (st.1 l).Nodup) :
    ∀ l, (((ps.foldl (fun acc pr => addPairStep acc pr.1 pr.2) st).1) l).Nodup := by
  induction ps generalizing st with
  | nil => exact hnd
  | cons p ps ih =>
      rw [List.foldl_cons]
      refine ih _ ?_
      intro l
      unfold addPairStep
      by_cases hc : p.2 ∈ st.1 p.1
      · rw [if_pos hc]
        exact hnd l
      · rw [if_neg hc]
        dsimp only
        by_cases hl : l = p.1
        · subst hl
          rw [if_pos rfl, List.nodup_append]
          exact ⟨hnd p.1, List.nodup_singleton _, by simpa using hc⟩
        · rw [if_neg hl]
          exact hnd l

/-- A key is in the key list of the lookup map iff its list is nonempty. -/
lemma checkFold_keys (ps : List (ℤ × ℤ)) (st : (ℤ → List ℤ) × List ℤ)
    (hk : ∀ l, l ∈ st.2 ↔ st.1 l ≠ []) :
    ∀ l, l ∈ (ps.foldl (fun acc pr => addPairStep acc pr.1 pr.2) st).2 ↔
      ((ps.foldl (fun acc pr => addPairStep acc pr.1 pr.2) st).1 l) ≠ [] := by
  induction ps generalizing st with
  | nil => exact hk
  | cons p ps ih =>
      rw [List.foldl_cons]
      refine ih _ ?_
      intro l
      unfold addPairStep
      by_cases hc : p.2 ∈ st.1 p.1
      · rw [if_pos hc]
        exact hk l
      · rw [if_neg hc]
        dsimp only
        by_cases hl : l = p.1
        · subst hl
          rw [if_pos rfl]
          refine iff_of_true ?_ (by simp)
          by_cases hm : p.1 ∈ st.2
          · rw [if_pos hm]
            exact hm
          · rw [if_neg hm]
            simp
        · rw [if_neg hl, ← hk l]
          by_cases hm : p.1 ∈ st.2
          · rw [if_pos hm]
          · rw [if_neg hm]
            simp [List.mem_append, hl]

/-- The key list of the lookup map stays duplicate-free. -/
lemma checkFold_keysNodup (ps : List (ℤ × ℤ)) (st : (ℤ → List ℤ) × List ℤ)
    (hnd : st.2.Nodup) (hk : ∀ l, l ∈ st.2 ↔ st.1 l ≠ []) :
    (ps.foldl (fun acc pr => addPairStep acc pr.1 pr.2) st).2.Nodup := by
  induction ps generalizing st with
  | nil => exact hnd
  | cons p ps ih =>
      rw [List.foldl_cons]
      refine ih _ ?_ ?_
      · unfold addPairStep
        by_cases hc : p.2 ∈ st.1 p.1
        · rw [if_pos hc]
          exact hnd
        · rw [if_neg hc]
          dsimp only
          by_cases hm : p.1 ∈ st.2
          · simpa [hm] using hnd
          · simp only [if_neg hm]
            rw [List.nodup_append]
            exact ⟨hnd, List.nodup_singleton _, by simpa using hm⟩
      · intro l
        unfold addPairStep
        by_cases hc : p.2 ∈ st.1 p.1
        · rw [if_pos hc]
          exact hk l
        · rw [if_neg hc]
          dsimp only
          by_cases hl : l = p.1
          · subst hl
            rw [if_pos rfl]
            refine iff_of_true ?_ (by simp)
            by_cases hm : p.1 ∈ st.2
            · rw [if_pos hm]
              exact hm
            · rw [if_neg hm]
              simp
          · rw [if_neg hl, ← hk l]
            by_cases hm : p.1 ∈ st.2
            · rw [if_pos hm]
            · rw [if_neg hm]
              simp [List.mem_append, hl]

/-- Pair membership in `checkPairs` is membership in the raw generated
pair multiset: the map dedupes but never drops a pair. -/
lemma mem_checkPairs (nbrs : ℤ → List ℤ) (locs : List ℤ) (a b : ℤ) :
    (a, b) ∈ checkPairs nbrs locs ↔ (a, b) ∈ genPairs nbrs locs := by
  unfold checkPairs
  rw [buildCheckLookup_eq]
  simp only [List.mem_flatMap, List.mem_map]
  constructor
  · rintro ⟨low, hlow, high, hh, heq⟩
    obtain ⟨rfl, rfl⟩ : low = a ∧ high = b :=
      ⟨congrArg Prod.fst heq, congrArg Prod.snd heq⟩
    have := (checkFold_mem _ _ _ _).mp hh
    simpa using this
  · intro h
    have hb : b ∈ ((genPairs nbrs locs).foldl
        (fun acc pr => addPairStep acc pr.1 pr.2) ((fun _ => []), [])).1 a :=
      (checkFold_mem _ _ _ _).mpr (Or.inr h)
    have hkeys := checkFold_keys (genPairs nbrs locs) ((fun _ => []), [])
      (fun l => by simp) a
    have ha : a ∈ ((genPairs nbrs locs).foldl
        (fun acc pr => addPairStep acc pr.1 pr.2) ((fun _ => []), [])).2 :=
      hkeys.mpr (List.ne_nil_of_mem hb)
    exact ⟨a, (List.perm_insertionSort (· ≤ ·) _).mem_iff.mpr ha, b, hb, rfl⟩

/-- The list `checkPairs` carries no duplicate pair. -/
lemma checkPairs_nodup (nbrs : ℤ → List ℤ) (locs : List ℤ) :
    (checkPairs nbrs locs).Nodup := by
  unfold checkPairs
  rw [buildCheckLookup_eq]
  rw [List.nodup_flatMap]
  constructor
  · intro low _
    refine List.Nodup.map ?_ (checkFold_nodup _ _ (fun l => List.nodup_nil) low)
    intro x y hxy
    exact congrArg Prod.snd hxy
  · have hknd : (((genPairs nbrs locs).foldl
        (fun acc pr => addPairStep acc pr.1 pr.2) ((fun _ => []), [])).2).Nodup :=
      checkFold_keysNodup _ _ List.nodup_nil (fun l => by simp)
    have hsnd : (((genPairs nbrs locs).foldl
        (fun acc pr => addPairStep acc pr.1 pr.2) ((fun _ => []), [])).2.insertionSort
          (· ≤ ·)).Nodup :=
      (List.perm_insertionSort (· ≤ ·) _).nodup_iff.mpr hknd
    refine List.Pairwise.imp ?_ hsnd
    intro a b hab
    intro pr hpa hpb
    rcases List.mem_map.mp hpa with ⟨x, -, rfl⟩
    rcases List.mem_map.mp hpb with ⟨y, -, hy⟩
    exact hab (congrArg Prod.fst hy).symm

/-- Over a duplicate-free list, every member has its index in `idxMap`. -/
lemma idxMap_mem_nodup (l : List ℤ) (hnd : l.Nodup) (a : ℤ) (ha : a ∈ l) :
    ∃ i, idxMap l a = some i ∧ i < l.length ∧ l.getD i 0 = a := by
  rcases List.mem_iff_get.mp ha with ⟨⟨i, hi⟩, hget⟩
  have hgd : l.getD i 0 = a := by
    rw [List.getD_eq_getElem _ _ hi]
    exact hget
  have hidx := idxMap_nodup l hnd i hi
  rw [hgd] at hidx
  exact ⟨i, hidx, hi, hgd⟩

/-- Reading a boolean result slot after a `set`. -/
lemma getD_set_bool (l : List Bool) (i k : ℕ) (v : Bool) (hk : k < l.length) :
    (l.set i v).getD k false = if i = k then v else l.getD k false := by
  rcases eq_or_ne i k with rfl | h
  · rw [if_pos rfl, List.getD_eq_getElem _ _ (by simpa using hk), List.getElem_set_self]
  · rw [if_neg h, List.getD_eq_getElem _ _ (by simpa using hk),
        List.getD_eq_getElem _ _ hk, List.getElem_set_ne h]

/-- Behavior of the marking loop when every pair member has an index:
no exception is thrown, the length is preserved, and a slot ends true
exactly when it started true or some processed pair hits it. -/
lemma markPairs_spec (fpos : List (Bool × shape × shape)) (locIdx : ℤ → Option ℕ)
    (pairs : List (ℤ × ℤ)) (res : List Bool)
    (h : ∀ pr ∈ pairs, ∃ i1 i2, locIdx pr.1 = some i1 ∧ locIdx pr.2 = some i2 ∧
      i1 < res.length ∧ i2 < res.length) :
    ∃ out, markPairs fpos locIdx pairs res = some out ∧ out.length = res.length ∧
      ∀ k, k < res.length →
        (out.getD k false = true ↔ res.getD k false = true ∨
          ∃ pr ∈ pairs,
            pairHit (fpos.getD ((locIdx pr.1).getD 0) (true, default, default))
                    (fpos.getD ((locIdx pr.2).getD 0) (true, default, default)) = true ∧
            (locIdx pr.1 = some k ∨ locIdx pr.2 = some k)) := by
  induction pairs generalizing res with
  | nil =>
      exact ⟨res, rfl, rfl, fun k _ => by simp⟩
  | cons pr pairs ih =>
      obtain ⟨flow, fhigh⟩ := pr
      obtain ⟨i1, i2, hi1, hi2, hl1, hl2⟩ := h (flow, fhigh) (List.mem_cons_self _ _)
      have hstep : markPairs fpos locIdx ((flow, fhigh) :: pairs) res =
          markPairs fpos locIdx pairs
            (if pairHit (fpos.getD i1 (true, default, default))
                (fpos.getD i2 (true, default, default)) = true
             then (res.set i1 true).set i2 true else res) := by
        rw [markPairs, hi1, hi2]
      set hit := pairHit (fpos.getD i1 (true, default, default))
        (fpos.getD i2 (true, default, default)) with hhitdef
      have hgd1 : (locIdx flow).getD 0 = i1 := by rw [hi1, Option.getD_some]
      have hgd2 : (locIdx fhigh).getD 0 = i2 := by rw [hi2, Option.getD_some]
      by_cases hhit : hit = true
      · rw [hstep, if_pos hhit]
        have hlen2 : ((res.set i1 true).set i2 true).length = res.length := by
          rw [List.length_set, List.length_set]
        obtain ⟨out, hout, holen, hiff⟩ := ih ((res.set i1 true).set i2 true)
          (by
            intro q hq
            obtain ⟨j1, j2, g1, g2, g3, g4⟩ := h q (List.mem_cons_of_mem _ hq)
            exact ⟨j1, j2, g1, g2, by rwa [hlen2], by rwa [hlen2]⟩)
        refine ⟨out, hout, by rwa [hlen2] at holen, ?_⟩
        intro k hk
        rw [hiff k (by rwa [hlen2])]
        have hset : ((res.set i1 true).set i2 true).getD k false = true ↔
            (res.getD k false = true ∨ k = i1 ∨ k = i2) := by
          rw [getD_set_bool _ _ _ _ (by rw [List.length_set]; exact hk),
              getD_set_bool _ _ _ _ hk]
          by_cases e2 : i2 = k
          · rw [if_pos e2]
            exact iff_of_true rfl (Or.inr (Or.inr e2.symm))
          · rw [if_neg e2]
            by_cases e1 : i1 = k
            · rw [if_pos e1]
              exact iff_of_true rfl (Or.inr (Or.inl e1.symm))
            · rw [if_neg e1]
              constructor
              · exact Or.inl
              · rintro (hres | rfl | rfl)
                · exact hres
                · exact absurd rfl e1
                · exact absurd rfl e2
        rw [hset, List.exists_mem_cons_iff]
        constructor
        · rintro ((hres | rfl | rfl) | hex)
          · exact Or.inl hres
          · exact Or.inr (Or.inl ⟨by rwa [hgd1, hgd2], Or.inl hi1⟩)
          · exact Or.inr (Or.inl ⟨by rwa [hgd1, hgd2], Or.inr hi2⟩)
          · exact Or.inr (Or.inr hex)
        · rintro (hres | ⟨-, (hk1 | hk2)⟩ | hex)
          · exact Or.inl (Or.inl hres)
          · rw [hi1] at hk1
            exact Or.inl (Or.inr (Or.inl (Option.some.inj hk1).symm))
          · rw [hi2] at hk2
            exact Or.inl (Or.inr (Or.inr (Option.some.inj hk2).symm))
          · exact Or.inr hex
      · rw [hstep, if_neg hhit]
        obtain ⟨out, hout, holen, hiff⟩ := ih res (fun q hq => h q (List.mem_cons_of_mem _ hq))
        refine ⟨out, hout, holen, ?_⟩
        intro k hk
        rw [hiff k hk, List.exists_mem_cons_iff]
        constructor
        · rintro (hres | hex)
          · exact Or.inl hres
          · exact Or.inr (Or.inr hex)
        · rintro (hres | ⟨hhit2, -⟩ | hex)
          · exact Or.inl hres
          · rw [hgd1, hgd2] at hhit2
            exact absurd hhit2 hhit
          · exact Or.inr hex

/-- The placements computed by `loc_position_xy_multi`, slot by slot. -/
lemma loc_position_xy_multi_getD (hw : Hardware) (locs : List ℤ) (xys : List Point)
    (threads : ℤ) (i : ℕ) (hik : i < locs.length) (hlen : xys.length = locs.length) :
    (loc_position_xy_multi hw locs xys threads).getD i (true, default, default) =
      loc_position_xy hw (locs.getD i 0) (xys.getD i ((0 : ℝ), (0 : ℝ))) := by
  unfold loc_position_xy_multi
  have hzl : i < (locs.zip xys).length := by
    rw [List.length_zip]
    omega
  have hxl : i < xys.length := by omega
  rw [List.getD_eq_getElem _ _ (by rw [List.length_map]; exact hzl), List.getElem_map,
      List.getElem_zip, List.getD_eq_getElem _ _ hik, List.getD_eq_getElem _ _ hxl]

/-- C1 (amended): when the supplied locations are pairwise distinct and
closed under the precomputed neighbor graph (and no location is its own
neighbor), `check_collisions_xy` checks exactly the deduplicated unordered
neighbor pairs within the supplied set and returns a boolean vector in
which entry `i` is true iff supplied location `i` participates in at
least one checked pair that collides (an unreachable placement counting
as a collision). -/
theorem c1_check_collisions_amended (hw : Hardware) (locs : List ℤ) (xys : List Point)
    (threads : ℤ)
    (hnd : locs.Nodup)
    (hlen : xys.length = locs.length)
    (hcl : ∀ l ∈ locs, ∀ nb ∈ hw.neighbors l, nb ∈ locs)
    (hirr : ∀ l ∈ locs, l ∉ hw.neighbors l) :
    (checkPairs hw.neighbors locs).Nodup ∧
    (∀ a b : ℤ, (a, b) ∈ checkPairs hw.neighbors locs ↔
      (a < b ∧ ((a ∈ locs ∧ b ∈ hw.neighbors a) ∨ (b ∈ locs ∧ a ∈ hw.neighbors b)))) ∧
    (∃ res, check_collisions_xy hw locs xys threads = some res ∧
      res.length = locs.length ∧
      ∀ i, i < locs.length →
        (res.getD i false = true ↔ ∃ j, j < locs.length ∧ j ≠ i ∧
          (locs.getD j 0 ∈ hw.neighbors (locs.getD i 0) ∨
           locs.getD i 0 ∈ hw.neighbors (locs.getD j 0)) ∧
          pairHit (loc_position_xy hw (locs.getD i 0) (xys.getD i ((0 : ℝ), (0 : ℝ))))
                  (loc_position_xy hw (locs.getD j 0) (xys.getD j ((0 : ℝ), (0 : ℝ)))) =
            true)) := by
  have hgdmem : ∀ i : ℕ, i < locs.length → locs.getD i 0 ∈ locs := by
    intro i hi
    rw [List.getD_eq_getElem _ _ hi]
    exact List.getElem_mem _
  have hgdne : ∀ i j : ℕ, i < locs.length → j < locs.length → i ≠ j →
      locs.getD i 0 ≠ locs.getD j 0 := by
    intro i j hi hj hij hEq
    have h2 : locs.get ⟨i, hi⟩ = locs.get ⟨j, hj⟩ := by
      rw [List.getD_eq_getElem _ _ hi, List.getD_eq_getElem _ _ hj] at hEq
      simpa [List.get_eq_getElem] using hEq
    exact hij (by simpa using (List.Nodup.get_inj_iff hnd).mp h2)
  have hpair : ∀ a b : ℤ, (a, b) ∈ checkPairs hw.neighbors locs ↔
      (a < b ∧ ((a ∈ locs ∧ b ∈ hw.neighbors a) ∨ (b ∈ locs ∧ a ∈ hw.neighbors b))) := by
    intro a b
    rw [mem_checkPairs]
    unfold genPairs
    simp only [List.mem_flatMap, List.mem_map]
    constructor
    · rintro ⟨lid, hlid, nb, hnb, horient⟩
      have hne : nb ≠ lid := fun h => hirr lid hlid (h ▸ hnb)
      unfold orient at horient
      by_cases hlt : lid < nb
      · rw [if_pos hlt] at horient
        have h1 : lid = a := congrArg Prod.fst horient
        have h2 : nb = b := congrArg Prod.snd horient
        subst h1
        subst h2
        exact ⟨hlt, Or.inl ⟨hlid, hnb⟩⟩
      · rw [if_neg hlt] at horient
        have h1 : nb = a := congrArg Prod.fst horient
        have h2 : lid = b := congrArg Prod.snd horient
        subst h1
        subst h2
        exact ⟨lt_of_le_of_ne (not_lt.mp hlt) hne, Or.inr ⟨hlid, hnb⟩⟩
    · rintro ⟨hab, (⟨ha, hb⟩ | ⟨hb, ha⟩)⟩
      · refine ⟨a, ha, b, hb, ?_⟩
        unfold orient
        rw [if_pos hab]
      · refine ⟨b, hb, a, ha, ?_⟩
        unfold orient
        rw [if_neg (not_lt.mpr hab.le)]
  have hboth : ∀ a b : ℤ, (a, b) ∈ checkPairs hw.neighbors locs → a ∈ locs ∧ b ∈ locs := by
    intro a b hmem
    rcases (hpair a b).mp hmem with ⟨-, (⟨ha, hb⟩ | ⟨hb, ha⟩)⟩
    · exact ⟨ha, hcl a ha b hb⟩
    · exact ⟨hcl b hb a ha, hb⟩
  refine ⟨checkPairs_nodup _ _, hpair, ?_⟩
  have hidx : locIndxOf locs = idxMap locs := rfl
  have hpre : ∀ pr ∈ checkPairs hw.neighbors locs, ∃ i1 i2,
      locIndxOf locs pr.1 = some i1 ∧ locIndxOf locs pr.2 = some i2 ∧
      i1 < (List.replicate locs.length false).length ∧
      i2 < (List.replicate locs.length false).length := by
    intro pr hpr
    obtain ⟨ha, hb⟩ := hboth pr.1 pr.2 hpr
    obtain ⟨i1, hsome1, hlt1, -⟩ := idxMap_mem_nodup locs hnd pr.1 ha
    obtain ⟨i2, hsome2, hlt2, -⟩ := idxMap_mem_nodup locs hnd pr.2 hb
    exact ⟨i1, i2, hidx ▸ hsome1, hidx ▸ hsome2,
      by rwa [List.length_replicate], by rwa [List.length_replicate]⟩
  obtain ⟨out, hout, holen, hiff⟩ := markPairs_spec
    (loc_position_xy_multi hw locs xys threads) (locIndxOf locs)
    (checkPairs hw.neighbors locs) (List.replicate locs.length false) hpre
  refine ⟨out, ?_, by rwa [List.length_replicate] at holen, ?_⟩
  · unfold check_collisions_xy
    exact hout
  intro i hi
  have hrepl : (List.replicate locs.length false).getD i false = false := by
    rw [List.getD_eq_getElem _ _ (by rwa [List.length_replicate]), List.getElem_replicate]
  rw [hiff i (by rwa [List.length_replicate]), hrepl]
  simp only [Bool.false_eq_true, false_or]
  constructor
  · rintro ⟨pr, hpr, hhit, hk⟩
    obtain ⟨ha, hb⟩ := hboth pr.1 pr.2 hpr
    obtain ⟨i1, hsome1, hlt1, hgd1⟩ := idxMap_mem_nodup locs hnd pr.1 ha
    obtain ⟨i2, hsome2, hlt2, hgd2⟩ := idxMap_mem_nodup locs hnd pr.2 hb
    have hab : pr.1 < pr.2 := ((hpair pr.1 pr.2).mp (by simpa using hpr)).1
    have hi12 : i1 ≠ i2 := by
      intro h
      rw [h, hgd2] at hgd1
      exact absurd hgd1 hab.ne'
    have hfpos1 : (loc_position_xy_multi hw locs xys threads).getD
        ((locIndxOf locs pr.1).getD 0) (true, default, default) =
        loc_position_xy hw (locs.getD i1 0) (xys.getD i1 ((0 : ℝ), (0 : ℝ))) := by
      rw [hidx, hsome1, Option.getD_some]
      exact loc_position_xy_multi_getD hw locs xys threads i1 hlt1 hlen
    have hfpos2 : (loc_position_xy_multi hw locs xys threads).getD
        ((locIndxOf locs pr.2).getD 0) (true, default, default) =
        loc_position_xy hw (locs.getD i2 0) (xys.getD i2 ((0 : ℝ), (0 : ℝ))) := by
      rw [hidx, hsome2, Option.getD_some]
      exact loc_position_xy_multi_getD hw locs xys threads i2 hlt2 hlen
    have hrel := ((hpair pr.1 pr.2).mp (by simpa using hpr)).2
    rcases hk with hk1 | hk2
    · have hi1i : i1 = i := by
        rw [hidx] at hk1
        rw [hsome1] at hk1
        exact Option.some.inj hk1
      subst hi1i
      refine ⟨i2, hlt2, fun h => hi12 h.symm, ?_, ?_⟩
      · rw [hgd1, hgd2]
        rcases hrel with ⟨-, hnb⟩ | ⟨-, hnb⟩
        · exact Or.inl hnb
        · exact Or.inr hnb
      · rw [hfpos1, hfpos2] at hhit
        exact hhit
    · have hi2i : i2 = i := by
        rw [hidx] at hk2
        rw [hsome2] at hk2
        exact Option.some.inj hk2
      subst hi2i
      refine ⟨i1, hlt1, hi12, ?_, ?_⟩
      · rw [hgd1, hgd2]
        rcases hrel with ⟨-, hnb⟩ | ⟨-, hnb⟩
        · exact Or.inr hnb
        · exact Or.inl hnb
      · rw [hfpos1, hfpos2] at hhit
        rw [pairHit_comm] at hhit
        exact hhit
  · rintro ⟨j, hj, hjne, hnbr, hhit⟩
    have hsome_i := idxMap_nodup locs hnd i hi
    have hsome_j := idxMap_nodup locs hnd j hj
    have habne : locs.getD i 0 ≠ locs.getD j 0 := hgdne i j hi hj (Ne.symm hjne)
    rcases lt_or_gt_of_ne habne with hab | hab
    · refine ⟨(locs.getD i 0, locs.getD j 0), ?_, ?_, Or.inl (by rw [hidx]; exact hsome_i)⟩
      · rw [hpair]
        refine ⟨hab, ?_⟩
        rcases hnbr with hnb | hnb
        · exact Or.inl ⟨hgdmem i hi, hnb⟩
        · exact Or.inr ⟨hgdmem j hj, hnb⟩
      · rw [hidx]
        simp only [hsome_i, hsome_j, Option.getD_some]
        rw [loc_position_xy_multi_getD hw locs xys threads i hi hlen,
            loc_position_xy_multi_getD hw locs xys threads j hj hlen]
        exact hhit
    · refine ⟨(locs.getD j 0, locs.getD i 0), ?_, ?_, Or.inr (by rw [hidx]; exact hsome_i)⟩
      · rw [hpair]
        refine ⟨hab, ?_⟩
        rcases hnbr with hnb | hnb
        · exact Or.inr ⟨hgdmem i hi, hnb⟩
        · exact Or.inl ⟨hgdmem j hj, hnb⟩
      · rw [hidx]
        simp only [hsome_i, hsome_j, Option.getD_some]
        rw [loc_position_xy_multi_getD hw locs xys threads j hj hlen,
            loc_position_xy_multi_getD hw locs xys threads i hi hlen]
        rw [pairHit_comm]
        exact hhit

/-- The neighbor map of the two-location hardware, computed: the single
index pair (0, 1) passes the 14.05 mm test at distance 1 mm. -/
lemma twoLoc_neighbors_fun : twoLocHW.neighbors =
    addNeighbor (addNeighbor (fun _ => []) 5 9) 9 5 := by
  have hne : twoLocHW.neighbors =
      neighborsOf (([5, 9] : List ℤ).insertionSort (· ≤ ·))
        (twoLocHW.loc_pos_xy_mm) := rfl
  have hsort : ([5, 9] : List ℤ).insertionSort (· ≤ ·) = [5, 9] := by decide
  rw [hne, hsort]
  unfold neighborsOf
  have hip : indexPairs ([(5 : ℤ), 9]).length = [(0, 1)] := by decide
  rw [hip, List.foldl_cons, List.foldl_nil]
  unfold neighborStep
  have hg0 : ([(5 : ℤ), 9]).getD (0, 1).1 0 = 5 := rfl
  have hg1 : ([(5 : ℤ), 9]).getD (0, 1).2 0 = 9 := rfl
  rw [hg0, hg1]
  dsimp only
  rw [twoLoc_pos5, twoLoc_pos9]
  rw [if_pos]
  unfold dist neighbor_radius_mm
  rw [show ((0 : ℝ) - 1) ^ 2 + ((0 : ℝ) - 0) ^ 2 = 1 by norm_num, Real.sqrt_one]
  norm_num

/-- Location 5 of the two-location hardware has the single neighbor 9. -/
lemma twoLoc_neighbors5 : twoLocHW.neighbors 5 = [9] := by
  rw [twoLoc_neighbors_fun]
  decide

/-- Location 9 of the two-location hardware has the single neighbor 5. -/
lemma twoLoc_neighbors9 : twoLocHW.neighbors 9 = [5] := by
  rw [twoLoc_neighbors_fun]
  decide

/-- The pair list the batch check builds when only location 5 is
supplied: the neighbor 9 is pulled in even though it was not supplied. -/
lemma twoLoc_checkPairs_single :
    checkPairs twoLocHW.neighbors [5] = [(5, 9)] := by
  unfold checkPairs buildCheckLookup
  rw [List.foldl_cons, List.foldl_nil]
  dsimp only
  rw [twoLoc_neighbors5]
  rw [List.foldl_cons, List.foldl_nil]
  decide

/-- Counterexample to C1: with only location 5 supplied on the
two-location hardware, the pair list contains (5, 9) whose member 9 has
no index among the supplied locations, so `loc_indx.at` throws
(`none` in the embedding) instead of returning the boolean vector the
claim promises — the checked pairs are not restricted to the supplied
set. -/
theorem c1_counterexample :
    check_collisions_xy twoLocHW [5] [((0 : ℝ), (0 : ℝ))] 1 = none := by
  unfold check_collisions_xy
  rw [twoLoc_checkPairs_single]
  have h5 : locIndxOf [(5 : ℤ)] 5 = some 0 := by decide
  have h9 : locIndxOf [(5 : ℤ)] 9 = none := by decide
  rw [markPairs, h5, h9]

/-- Witness for the amended C1: supplying both locations of the
two-location hardware (distinct, neighbor-closed, irreflexive) returns a
two-entry boolean vector. -/
theorem c1_check_collisions_witness :
    ∃ res, check_collisions_xy twoLocHW [5, 9]
        [((0 : ℝ), (0 : ℝ)), ((1 : ℝ), (0 : ℝ))] 1 = some res ∧ res.length = 2 := by
  have hcl : ∀ l ∈ ([(5 : ℤ), 9]), ∀ nb ∈ twoLocHW.neighbors l,
      nb ∈ ([(5 : ℤ), 9]) := by
    intro l hl nb hnb
    rcases List.mem_cons.mp hl with rfl | hl9
    · rw [twoLoc_neighbors5] at hnb
      rcases List.mem_singleton.mp hnb with rfl
      simp
    · rcases List.mem_singleton.mp hl9 with rfl
      rw [twoLoc_neighbors9] at hnb
      rcases List.mem_singleton.mp hnb with rfl
      simp
  have hirr : ∀ l ∈ ([(5 : ℤ), 9]), l ∉ twoLocHW.neighbors l := by
    intro l hl
    rcases List.mem_cons.mp hl with rfl | hl9
    · rw [twoLoc_neighbors5]
      simp
    · rcases List.mem_singleton.mp hl9 with rfl
      rw [twoLoc_neighbors9]
      simp
  obtain ⟨-, -, res, hres, hrlen, -⟩ := c1_check_collisions_amended
    twoLocHW [5, 9] [((0 : ℝ), (0 : ℝ)), ((1 : ℝ), (0 : ℝ))] 1
    (by decide) rfl hcl hirr
  exact ⟨res, hres, by simpa using hrlen⟩

/-! ## C3: the radial Newton inversion

In exact real arithmetic the radial cubic is strictly increasing with
slope at least 13938, so the Newton iteration with finite-difference
slope contracts quadratically.  The lemmas below track one explicit
error-bound chain `1/40 → 63e-4 → 41e-5 → 22e-7 → 27e-10 → 33e-13`; at
the last bound the loop guard must fail and the loop exits. -/

/-- The radial cubic factored across two points. -/
lemma radial_sub_eq (θ r : ℝ) :
    radial_ang2dist θ - radial_ang2dist r = (θ - r) * newtonQ θ r := by
  unfold radial_ang2dist newtonQ
  ring

/-- The finite-difference slope in closed form. -/
lemma newtonD_eq (θ : ℝ) :
    newtonD θ = 2489100 * θ ^ 2 - (325109 / 100) * θ + 13939833297 / 1000000 := by
  unfold newtonD radial_ang2dist
  ring

/-- The finite-difference slope is everywhere at least 13938. -/
lemma newtonD_lb (θ : ℝ) : 13938 ≤ newtonD θ := by
  rw [newtonD_eq]
  nlinarith [sq_nonneg (4978200 * θ - 325109 / 100)]

/-- Difference between the finite-difference slope and the secant slope. -/
lemma newtonDQ_eq (θ r : ℝ) :
    newtonD θ - newtonQ θ r =
      (θ - r) * (829700 * (2 * θ + r) - 1750) +
        ((24891 / 100) * θ + 8297 / 1000000 - 175 / 1000) := by
  rw [newtonD_eq]
  unfold newtonQ
  ring

/-- Bounds on the secant slope near the root. -/
lemma newtonQ_bounds (θ r : ℝ) (hr0 : 0 ≤ r) (hr1 : r ≤ 7 / 200)
    (he : |θ - r| ≤ 1 / 40) :
    13000 ≤ newtonQ θ r ∧ newtonQ θ r ≤ 20000 := by
  obtain ⟨he1, he2⟩ := abs_le.mp he
  have hθub : θ ≤ 3 / 50 := by linarith
  have hθlb : -(1 / 40) ≤ θ := by linarith
  unfold newtonQ
  constructor
  · nlinarith [sq_nonneg (2 * θ + r), sq_nonneg r]
  · nlinarith [mul_nonneg (by linarith : (0 : ℝ) ≤ 3 / 50 - θ)
        (by linarith : (0 : ℝ) ≤ θ + 1 / 40),
      mul_nonneg (by linarith : (0 : ℝ) ≤ 3 / 50 - θ) hr0,
      mul_nonneg hr0 (by linarith : (0 : ℝ) ≤ 7 / 200 - r)]

/-- One Newton step contracts the error: from error at most `b ≤ 1/40`
the next error is at most `b·(10b + 0.0012)`. -/
lemma newton_step_contract (r θ b : ℝ) (hr0 : 0 ≤ r) (hr1 : r ≤ 7 / 200)
    (hb : b ≤ 1 / 40) (he : |θ - r| ≤ b) :
    |newtonStep (radial_ang2dist r) θ - r| ≤ b * (10 * b + 3 / 2500) := by
  have hb0 : (0 : ℝ) ≤ b := le_trans (abs_nonneg _) he
  obtain ⟨he1, he2⟩ := abs_le.mp he
  have hθub : θ ≤ 3 / 50 := by linarith
  have hθlb : -(1 / 40) ≤ θ := by linarith
  have hD := newtonD_lb θ
  have hDpos : (0 : ℝ) < newtonD θ := by linarith
  have hstep : newtonStep (radial_ang2dist r) θ - r =
      (θ - r) * (newtonD θ - newtonQ θ r) / newtonD θ := by
    unfold newtonStep
    rw [show (10000 : ℝ) * (radial_ang2dist (θ + 1 / 10000) - radial_ang2dist θ) =
          newtonD θ from rfl, radial_sub_eq θ r]
    field_simp
    ring
  rw [hstep, abs_div, abs_of_pos hDpos, div_le_iff hDpos, abs_mul]
  have hDQ : |newtonD θ - newtonQ θ r| ≤ b * 131000 + 15 := by
    rw [newtonDQ_eq θ r]
    refine le_trans (abs_add _ _) ?_
    have hA : |829700 * (2 * θ + r) - 1750| ≤ 131000 := by
      rw [abs_le]
      constructor
      · nlinarith
      · nlinarith
    have h1 : |(θ - r) * (829700 * (2 * θ + r) - 1750)| ≤ b * 131000 := by
      rw [abs_mul]
      exact mul_le_mul he hA (abs_nonneg _) hb0
    have h2 : |(24891 / 100) * θ + 8297 / 1000000 - 175 / 1000| ≤ 15 := by
      rw [abs_le]
      constructor
      · nlinarith
      · nlinarith
    linarith
  calc |θ - r| * |newtonD θ - newtonQ θ r| ≤ b * (b * 131000 + 15) :=
        mul_le_mul he hDQ (abs_nonneg _) hb0
    _ ≤ b * (10 * b + 3 / 2500) * newtonD θ := by
        nlinarith [mul_nonneg (mul_nonneg hb0 hb0) (by linarith : (0 : ℝ) ≤ newtonD θ - 13938),
          mul_nonneg hb0 (by linarith : (0 : ℝ) ≤ newtonD θ - 13938),
          mul_nonneg hb0 hb0]

/-- When the loop guard fails (error within tolerance), the returned
angle — one more Newton step — is within `1e-7` rad of the true angle and
its image under the cubic is strictly within `1e-7` mm of the input. -/
lemma newton_exit_accurate (r θ : ℝ) (hr0 : 0 ≤ r) (hr1 : r ≤ 7 / 200)
    (he : |θ - r| ≤ 1 / 40)
    (herr : |radial_ang2dist θ - radial_ang2dist r| ≤ 1 / 10 ^ 7) :
    |newtonStep (radial_ang2dist r) θ - r| ≤ 1 / 10 ^ 7 ∧
    |radial_ang2dist (newtonStep (radial_ang2dist r) θ) - radial_ang2dist r| < 1 / 10 ^ 7 := by
  obtain ⟨hQlb, -⟩ := newtonQ_bounds θ r hr0 hr1 he
  have hQpos : (0 : ℝ) < newtonQ θ r := by linarith
  have htight : |θ - r| ≤ 1 / 10 ^ 10 := by
    rw [radial_sub_eq θ r, abs_mul, abs_of_pos hQpos] at herr
    nlinarith [abs_nonneg (θ - r)]
  have hstep := newton_step_contract r θ (1 / 10 ^ 10) hr0 hr1 (by norm_num) htight
  have hs1 : |newtonStep (radial_ang2dist r) θ - r| ≤ 1 / 10 ^ 7 := by
    calc |newtonStep (radial_ang2dist r) θ - r|
        ≤ (1 / 10 ^ 10) * (10 * (1 / 10 ^ 10) + 3 / 2500) := hstep
      _ ≤ 1 / 10 ^ 7 := by norm_num
  refine ⟨hs1, ?_⟩
  obtain ⟨-, hQub'⟩ := newtonQ_bounds (newtonStep (radial_ang2dist r) θ) r hr0 hr1
    (by
      calc |newtonStep (radial_ang2dist r) θ - r| ≤ 1 / 10 ^ 7 := hs1
        _ ≤ 1 / 40 := by norm_num)
  have hQlb' := (newtonQ_bounds (newtonStep (radial_ang2dist r) θ) r hr0 hr1
    (by
      calc |newtonStep (radial_ang2dist r) θ - r| ≤ 1 / 10 ^ 7 := hs1
        _ ≤ 1 / 40 := by norm_num)).1
  rw [radial_sub_eq _ r, abs_mul, abs_of_pos (by linarith : (0 : ℝ) <
    newtonQ (newtonStep (radial_ang2dist r) θ) r)]
  have hsmall : |newtonStep (radial_ang2dist r) θ - r| ≤ 13 / 10 ^ 13 := by
    calc |newtonStep (radial_ang2dist r) θ - r|
        ≤ (1 / 10 ^ 10) * (10 * (1 / 10 ^ 10) + 3 / 2500) := hstep
      _ ≤ 13 / 10 ^ 13 := by norm_num
  calc |newtonStep (radial_ang2dist r) θ - r| * newtonQ (newtonStep (radial_ang2dist r) θ) r
      ≤ (13 / 10 ^ 13) * 20000 := by
        exact mul_le_mul hsmall hQub' (by linarith) (by norm_num)
    _ < 1 / 10 ^ 7 := by norm_num

/-- With the error below `3.3e-12` the loop guard cannot fire. -/
lemma newton_force_exit (r θ : ℝ) (hr0 : 0 ≤ r) (hr1 : r ≤ 7 / 200)
    (hsmall : |θ - r| ≤ 33 / 10 ^ 13) :
    ¬ (|radial_ang2dist θ - radial_ang2dist r| > 1 / 10 ^ 7) := by
  rw [not_lt, radial_sub_eq θ r, abs_mul]
  have he : |θ - r| ≤ 1 / 40 := le_trans hsmall (by norm_num)
  obtain ⟨hQlb, hQub⟩ := newtonQ_bounds θ r hr0 hr1 he
  have hQpos : (0 : ℝ) < newtonQ θ r := by linarith
  rw [abs_of_pos hQpos]
  calc |θ - r| * newtonQ θ r ≤ (33 / 10 ^ 13) * 20000 :=
        mul_le_mul hsmall hQub (by linarith) (by norm_num)
    _ ≤ 1 / 10 ^ 7 := by norm_num

/-- With the error below `3.3e-12` and any fuel, the loop exits at once
with an accurate angle. -/
lemma newton_conv5 (r : ℝ) (hr0 : 0 ≤ r) (hr1 : r ≤ 7 / 200) :
    ∀ fuel θ, 1 ≤ fuel → |θ - r| ≤ 33 / 10 ^ 13 →
    ∃ x, radial_dist2ang_loop (radial_ang2dist r) fuel θ = some x ∧
      |x - r| ≤ 1 / 10 ^ 7 ∧ |radial_ang2dist x - radial_ang2dist r| < 1 / 10 ^ 7 := by
  intro fuel θ hf hsmall
  obtain ⟨m, rfl⟩ : ∃ m, fuel = m + 1 := ⟨fuel - 1, by omega⟩
  rw [radial_dist2ang_loop, if_neg (newton_force_exit r θ hr0 hr1 hsmall)]
  have hacc := newton_exit_accurate r θ hr0 hr1 (le_trans hsmall (by norm_num))
    (not_lt.mp (newton_force_exit r θ hr0 hr1 hsmall))
  exact ⟨_, rfl, hacc.1, hacc.2⟩

/-- Convergence from error at most `2.7e-9` with fuel at least 2. -/
lemma newton_conv4 (r : ℝ) (hr0 : 0 ≤ r) (hr1 : r ≤ 7 / 200) :
    ∀ fuel θ, 2 ≤ fuel → |θ - r| ≤ 27 / 10 ^ 10 →
    ∃ x, radial_dist2ang_loop (radial_ang2dist r) fuel θ = some x ∧
      |x - r| ≤ 1 / 10 ^ 7 ∧ |radial_ang2dist x - radial_ang2dist r| < 1 / 10 ^ 7 := by
  intro fuel θ hf he
  obtain ⟨m, rfl⟩ : ∃ m, fuel = m + 1 := ⟨fuel - 1, by omega⟩
  rw [radial_dist2ang_loop]
  by_cases hg : |radial_ang2dist θ - radial_ang2dist r| > 1 / 10 ^ 7
  · rw [if_pos hg]
    refine newton_conv5 r hr0 hr1 m _ (by omega) ?_
    calc |newtonStep (radial_ang2dist r) θ - r|
        ≤ (27 / 10 ^ 10) * (10 * (27 / 10 ^ 10) + 3 / 2500) :=
          newton_step_contract r θ (27 / 10 ^ 10) hr0 hr1 (by norm_num) he
      _ ≤ 33 / 10 ^ 13 := by norm_num
  · rw [if_neg hg]
    have hacc := newton_exit_accurate r θ hr0 hr1 (le_trans he (by norm_num)) (not_lt.mp hg)
    exact ⟨_, rfl, hacc.1, hacc.2⟩

/-- Convergence from error at most `2.2e-6` with fuel at least 3. -/
lemma newton_conv3 (r : ℝ) (hr0 : 0 ≤ r) (hr1 : r ≤ 7 / 200) :
    ∀ fuel θ, 3 ≤ fuel → |θ - r| ≤ 22 / 10 ^ 7 →
    ∃ x, radial_dist2ang_loop (radial_ang2dist r) fuel θ = some x ∧
      |x - r| ≤ 1 / 10 ^ 7 ∧ |radial_ang2dist x - radial_ang2dist r| < 1 / 10 ^ 7 := by
  intro fuel θ hf he
  obtain ⟨m, rfl⟩ : ∃ m, fuel = m + 1 := ⟨fuel - 1, by omega⟩
  rw [radial_dist2ang_loop]
  by_cases hg : |radial_ang2dist θ - radial_ang2dist r| > 1 / 10 ^ 7
  · rw [if_pos hg]
    refine newton_conv4 r hr0 hr1 m _ (by omega) ?_
    calc |newtonStep (radial_ang2dist r) θ - r|
        ≤ (22 / 10 ^ 7) * (10 * (22 / 10 ^ 7) + 3 / 2500) :=
          newton_step_contract r θ (22 / 10 ^ 7) hr0 hr1 (by norm_num) he
      _ ≤ 27 / 10 ^ 10 := by norm_num
  · rw [if_neg hg]
    have hacc := newton_exit_accurate r θ hr0 hr1 (le_trans he (by norm_num)) (not_lt.mp hg)
    exact ⟨_, rfl, hacc.1, hacc.2⟩

/-- Convergence from error at most `4.1e-4` with fuel at least 4. -/
lemma newton_conv2 (r : ℝ) (hr0 : 0 ≤ r) (hr1 : r ≤ 7 / 200) :
    ∀ fuel θ, 4 ≤ fuel → |θ - r| ≤ 41 / 10 ^ 5 →
    ∃ x, radial_dist2ang_loop (radial_ang2dist r) fuel θ = some x ∧
      |x - r| ≤ 1 / 10 ^ 7 ∧ |radial_ang2dist x - radial_ang2dist r| < 1 / 10 ^ 7 := by
  intro fuel θ hf he
  obtain ⟨m, rfl⟩ : ∃ m, fuel = m + 1 := ⟨fuel - 1, by omega⟩
  rw [radial_dist2ang_loop]
  by_cases hg : |radial_ang2dist θ - radial_ang2dist r| > 1 / 10 ^ 7
  · rw [if_pos hg]
    refine newton_conv3 r hr0 hr1 m _ (by omega) ?_
    calc |newtonStep (radial_ang2dist r) θ - r|
        ≤ (41 / 10 ^ 5) * (10 * (41 / 10 ^ 5) + 3 / 2500) :=
          newton_step_contract r θ (41 / 10 ^ 5) hr0 hr1 (by norm_num) he
      _ ≤ 22 / 10 ^ 7 := by norm_num
  · rw [if_neg hg]
    have hacc := newton_exit_accurate r θ hr0 hr1 (le_trans he (by norm_num)) (not_lt.mp hg)
    exact ⟨_, rfl, hacc.1, hacc.2⟩

/-- Convergence from error at most `6.3e-3` with fuel at least 5. -/
lemma newton_conv1 (r : ℝ) (hr0 : 0 ≤ r) (hr1 : r ≤ 7 / 200) :
    ∀ fuel θ, 5 ≤ fuel → |θ - r| ≤ 63 / 10 ^ 4 →
    ∃ x, radial_dist2ang_loop (radial_ang2dist r) fuel θ = some x ∧
      |x - r| ≤ 1 / 10 ^ 7 ∧ |radial_ang2dist x - radial_ang2dist r| < 1 / 10 ^ 7 := by
  intro fuel θ hf he
  obtain ⟨m, rfl⟩ : ∃ m, fuel = m + 1 := ⟨fuel - 1, by omega⟩
  rw [radial_dist2ang_loop]
  by_cases hg : |radial_ang2dist θ - radial_ang2dist r| > 1 / 10 ^ 7
  · rw [if_pos hg]
    refine newton_conv2 r hr0 hr1 m _ (by omega) ?_
    calc |newtonStep (radial_ang2dist r) θ - r|
        ≤ (63 / 10 ^ 4) * (10 * (63 / 10 ^ 4) + 3 / 2500) :=
          newton_step_contract r θ (63 / 10 ^ 4) hr0 hr1 (by norm_num) he
      _ ≤ 41 / 10 ^ 5 := by norm_num
  · rw [if_neg hg]
    have hacc := newton_exit_accurate r θ hr0 hr1 (le_trans he (by norm_num)) (not_lt.mp hg)
    exact ⟨_, rfl, hacc.1, hacc.2⟩

/-- Convergence from error at most `1/40` with fuel at least 6. -/
lemma newton_conv0 (r : ℝ) (hr0 : 0 ≤ r) (hr1 : r ≤ 7 / 200) :
    ∀ fuel θ, 6 ≤ fuel → |θ - r| ≤ 1 / 40 →
    ∃ x, radial_dist2ang_loop (radial_ang2dist r) fuel θ = some x ∧
      |x - r| ≤ 1 / 10 ^ 7 ∧ |radial_ang2dist x - radial_ang2dist r| < 1 / 10 ^ 7 := by
  intro fuel θ hf he
  obtain ⟨m, rfl⟩ : ∃ m, fuel = m + 1 := ⟨fuel - 1, by omega⟩
  rw [radial_dist2ang_loop]
  by_cases hg : |radial_ang2dist θ - radial_ang2dist r| > 1 / 10 ^ 7
  · rw [if_pos hg]
    refine newton_conv1 r hr0 hr1 m _ (by omega) ?_
    calc |newtonStep (radial_ang2dist r) θ - r|
        ≤ (1 / 40) * (10 * (1 / 40) + 3 / 2500) :=
          newton_step_contract r θ (1 / 40) hr0 hr1 (by norm_num) he
      _ ≤ 63 / 10 ^ 4 := by norm_num
  · rw [if_neg hg]
    have hacc := newton_exit_accurate r θ hr0 hr1 (le_trans he (by norm_num)) (not_lt.mp hg)
    exact ⟨_, rfl, hacc.1, hacc.2⟩

/-- C3: for every distance produced by `radial_ang2dist` on an angle in
`[0, 2°]`, the Newton loop of `radial_dist2ang` (initial guess 0.01 rad,
finite-difference step 1e-4) terminates — six iterations of fuel
suffice — and returns an angle within `1e-7` rad of the true angle, whose
image under `radial_ang2dist` is strictly within the `1e-7` exit
tolerance of the input distance (exact real arithmetic). -/
theorem c3_radial_inversion (r : ℝ) (fuel : ℕ) (h0 : 0 ≤ r) (h1 : r ≤ Real.pi / 90)
    (hf : 6 ≤ fuel) :
    ∃ x, radial_dist2ang_loop (radial_ang2dist r) fuel (1 / 100) = some x ∧
      |x - r| ≤ 1 / 10 ^ 7 ∧
      |radial_ang2dist x - radial_ang2dist r| < 1 / 10 ^ 7 ∧
      radial_dist2ang fuel (radial_ang2dist r) = x := by
  have hr1 : r ≤ 7 / 200 := by
    have hpi : Real.pi < 3.15 := Real.pi_lt_315
    have h90 : Real.pi / 90 ≤ 7 / 200 := by linarith
    linarith
  have hinit : |(1 / 100 : ℝ) - r| ≤ 1 / 40 := by
    rw [abs_le]
    constructor <;> linarith
  obtain ⟨x, hx, hacc, herr⟩ := newton_conv0 r h0 hr1 fuel (1 / 100) hf hinit
  refine ⟨x, hx, hacc, herr, ?_⟩
  unfold radial_dist2ang
  rw [hx]
  rfl

/-- Witness for C3 at the true angle `r = 0.01` rad (which is the initial
guess, so the loop exits on its first pass) with fuel 6. -/
theorem c3_radial_inversion_witness :
    ∃ x, radial_dist2ang_loop (radial_ang2dist (1 / 100)) 6 (1 / 100) = some x ∧
      |x - 1 / 100| ≤ 1 / 10 ^ 7 ∧
      |radial_ang2dist x - radial_ang2dist (1 / 100)| < 1 / 10 ^ 7 ∧
      radial_dist2ang 6 (radial_ang2dist (1 / 100)) = x := by
  refine c3_radial_inversion (1 / 100) 6 (by norm_num) ?_ (le_refl 6)
  have hpi := Real.pi_gt_three
  rw [le_div_iff (by norm_num : (0 : ℝ) < 90)]
  linarith

end Fiberassign
